import Mathlib

/-!
Verification of the deets query/merge/format engine.

This file is a shallow embedding, in Lean 4, of the core of the `deets`
personal metadata store: the in-memory data model (`internal/model`), the
query/search functions (`model.go`), the global/local merge
(`internal/store/merge.go`), the loader (`internal/store/load.go`, the part
after `toml.Unmarshal`), the diff computation (`internal/commands/diff.go`)
and the TOML formatter (`internal/model/format.go`), together with proofs of
the documented properties of those functions.

Modelling conventions:
- Go strings are modelled as `List Char` (`GoStr`).  Go operates on bytes and
  decodes UTF-8 runes where needed; on ASCII data (all inputs relevant to the
  properties proved here) the byte-level and char-level views coincide, and on
  non-ASCII data UTF-8 byte order agrees with codepoint order, so
  lexicographic comparison is unaffected.
- Go `map` values are modelled as association lists together with the
  operations the code actually performs on them (key-set collection followed
  by `sort.Strings`, and lookups), which makes every modelled function
  deterministic exactly where the Go code is.
- `float64` values are abstracted by the decimal token `fmt.Sprint` renders
  them to (shortest round-trippable form); none of the verified properties
  depend on float arithmetic.
- `sort.Strings` sorts a string slice in ascending lexicographic order; since
  equal strings are indistinguishable, the sorted list is uniquely determined
  and we model it with `List.insertionSort`.
-/

/-- A Go string, viewed as its list of characters. -/
abbrev GoStr := List Char

/-- Convert a Lean string literal to the `GoStr` model. -/
def gs (s : String) : GoStr := s.toList

/-- Ascending lexicographic sort of a list of strings, the result of Go's
`sort.Strings`. -/
def sortStrs (l : List GoStr) : List GoStr := l.insertionSort (· ≤ ·)

namespace Deets

/-- The open union `interface{}` of values a field can hold, closed to the
shapes the engine actually distinguishes: Go `string`, `[]interface{}`,
`[]string`, `int64`, `float64`, `bool`, `map[string]interface{}` (nested TOML
tables), and a catch-all for any other Go value abstracted by its `%v`
rendering. -/
inductive Value where
  | str (s : GoStr)
  | arr (elems : List Value)
  | strArr (elems : List GoStr)
  | intV (n : Int)
  | floatV (tok : GoStr)
  | boolV (b : Bool)
  | table (kvs : List (GoStr × Value))
  | other (tok : GoStr)

/-- `model.Field`: a single metadata entry within a category. -/
structure Field where
  Key : GoStr
  Value : Value
  Desc : GoStr
  Category : GoStr

/-- `model.Category`: a named group of related fields. -/
structure Category where
  Name : GoStr
  Fields : List Field

/-- `model.DB`: the top-level container, an ordered list of categories. -/
structure DB where
  Categories : List Category

/-- `model.IsDescKey`: whether the key is a description companion field,
identified by the `"_desc"` suffix. -/
def IsDescKey (key : GoStr) : Bool := (gs "_desc").isSuffixOf key

/-- Decimal digits of a natural number (`fmt.Sprint` on a non-negative
integer). -/
def natDigits (n : Nat) : GoStr :=
  if h : n < 10 then [Char.ofNat (48 + n)]
  else natDigits (n / 10) ++ [Char.ofNat (48 + n % 10)]
  termination_by n
  decreasing_by exact Nat.div_lt_self (by omega) (by omega)

/-- `fmt.Sprint` on an `int64`: base-10 with a leading `-` when negative. -/
def intRepr : Int → GoStr
  | .ofNat n => natDigits n
  | .negSucc m => '-' :: natDigits (m + 1)

/-- Join a list of strings with a separator (`strings.Join`). -/
def joinSep (sep : GoStr) (xs : List GoStr) : GoStr :=
  (List.intersperse sep xs).flatten

mutual

/-- `fmt.Sprintf("%v", v)`: Go's default rendering of a value.  Slices render
as `[a b c]`; maps render as `map[k1:v1 k2:v2]` with keys sorted (Go `fmt`
sorts map keys). -/
def sprintV : Value → GoStr
  | .str s => s
  | .arr xs => '[' :: joinSep [' '] (sprintVList xs) ++ [']']
  | .strArr xs => '[' :: joinSep [' '] xs ++ [']']
  | .intV n => intRepr n
  | .floatV tok => tok
  | .boolV b => if b then gs "true" else gs "false"
  | .table kvs =>
      let sorted := (sprintVKVs kvs).insertionSort (fun a b => a.1 ≤ b.1)
      gs "map[" ++ joinSep [' '] (sorted.map fun e => e.1 ++ ':' :: e.2) ++ [']']
  | .other tok => tok

/-- `%v` of each element of a `[]interface{}`. -/
def sprintVList : List Value → List GoStr
  | [] => []
  | v :: vs => sprintV v :: sprintVList vs

/-- `%v` of each entry value of a `map[string]interface{}`. -/
def sprintVKVs : List (GoStr × Value) → List (GoStr × GoStr)
  | [] => []
  | (k, v) :: rest => (k, sprintV v) :: sprintVKVs rest

end

/-- `model.FormatValue`: the display text of a value.  A `string` is itself;
`[]interface{}` joins the `%v` of the items with `", "`; `[]string` joins with
`", "`; `int64`/`float64` use `fmt.Sprint`; everything else falls back to
`%v`. -/
def FormatValue : Value → GoStr
  | .str s => s
  | .arr xs => joinSep (gs ", ") (xs.map sprintV)
  | .strArr xs => joinSep (gs ", ") xs
  | .intV n => intRepr n
  | .floatV tok => tok
  | v => sprintV v

/-- `strings.ToLower` (ASCII case mapping). -/
def toLowerStr (s : GoStr) : GoStr := s.map Char.toLower

/-- `strings.Contains s sub`: substring test. -/
def goContains : GoStr → GoStr → Bool
  | [], sub => sub.isEmpty
  | c :: rest, sub => sub.isPrefixOf (c :: rest) || goContains rest sub

/-- `model.containsLower`: whether `s`, lowercased, contains the
already-lowered substring `q`. -/
def containsLower (s q : GoStr) : Bool := goContains (toLowerStr s) q

/-- `strings.SplitN path "." 2`: `none` when the string has no dot, otherwise
the parts before and after the first dot. -/
def splitFirstDot : GoStr → Option (GoStr × GoStr)
  | [] => none
  | '.' :: rest => some ([], rest)
  | c :: rest => (splitFirstDot rest).map (fun p => (c :: p.1, p.2))

/-- `DB.GetField`: retrieve a single field by its `"category.key"` path.
Returns `none` when the path has no dot, the category does not exist, or the
key does not exist in the first category of that name. -/
def GetField (db : DB) (path : GoStr) : Option Field :=
  match splitFirstDot path with
  | none => none
  | some (catName, key) =>
    match db.Categories.find? (fun cat => cat.Name == catName) with
    | some cat => cat.Fields.find? (fun f => f.Key == key)
    | none => none

/-- `DB.GetCategory`: retrieve a category by name (first match). -/
def GetCategory (db : DB) (name : GoStr) : Option Category :=
  db.Categories.find? (fun cat => cat.Name == name)

/-- `DB.Search`: case-insensitive search across keys, display values and
descriptions, excluding `_desc` fields. -/
def Search (db : DB) (query : GoStr) : List Field :=
  let q := toLowerStr query
  db.Categories.flatMap fun cat =>
    cat.Fields.filter fun f =>
      !IsDescKey f.Key &&
        (containsLower f.Key q || containsLower (FormatValue f.Value) q ||
          containsLower f.Desc q)

/-- `DB.AllFields`: every field in the database, excluding `_desc` fields, in
category order. -/
def AllFields (db : DB) : List Field :=
  db.Categories.flatMap fun cat =>
    cat.Fields.filter fun f => !IsDescKey f.Key

/-- Verification-side helper: structural lookup of the field with key `k` in
the first category named `c` (presence of a `category.key` pair in a
database, stated without going through path-string splitting). -/
def dbFind (db : DB) (c k : GoStr) : Option Field :=
  (db.Categories.find? (fun cat => cat.Name == c)).bind
    (fun cat => cat.Fields.find? (fun f => f.Key == k))

/-! ### Go `path/filepath.Match`

The glob matcher the query engine delegates to.  `none` models a
`ErrBadPattern` return; `some b` models `(b, nil)`.  The embedding follows
the Go standard library source (non-Windows build: `Separator` is `/` and
backslash is an escape character). -/

/-- `filepath.Separator` on Unix. -/
def Separator : Char := '/'

/-- The scan loop of `filepath.scanChunk`: split the (already de-starred)
pattern at the first `*` that is not inside a bracket class, skipping
escaped characters.  Returns `(chunk, rest)`. -/
def scanBody : GoStr → Bool → GoStr × GoStr
  | [], _ => ([], [])
  | '\\' :: rest, inrange =>
      match rest with
      | [] => (['\\'], [])
      | c :: rest2 =>
        let p := scanBody rest2 inrange
        ('\\' :: c :: p.1, p.2)
  | '[' :: rest, _ =>
      let p := scanBody rest true
      ('[' :: p.1, p.2)
  | ']' :: rest, _ =>
      let p := scanBody rest false
      (']' :: p.1, p.2)
  | '*' :: rest, inrange =>
      if inrange then
        let p := scanBody rest true
        ('*' :: p.1, p.2)
      else ([], '*' :: rest)
  | c :: rest, inrange =>
      let p := scanBody rest inrange
      (c :: p.1, p.2)

/-- `filepath.scanChunk`: strip leading `*`s, then take the pattern up to
the next top-level `*`.  Returns `(star, chunk, rest)`. -/
def scanChunk (pattern : GoStr) : Bool × GoStr × GoStr :=
  let star := match pattern with | '*' :: _ => true | _ => false
  let p := pattern.dropWhile (· == '*')
  let q := scanBody p false
  (star, q.1, q.2)

/-- `filepath.getEsc`: read a possibly-escaped character from a character
class.  Errors when the class is exhausted, starts with `-` or `]`, or the
read character is the last character of the chunk (the class is unclosed). -/
def getEsc : GoStr → Option (Char × GoStr)
  | [] => none
  | '-' :: _ => none
  | ']' :: _ => none
  | '\\' :: rest =>
      match rest with
      | [] => none
      | c :: rest2 => if rest2.isEmpty then none else some (c, rest2)
  | c :: rest => if rest.isEmpty then none else some (c, rest)

lemma getEsc_length (c : GoStr) (r : Char) (c2 : GoStr)
    (h : getEsc c = some (r, c2)) : c2.length < c.length := by
  unfold getEsc at h
  repeat' split at h
  all_goals simp_all
  all_goals omega

/-- The range-parsing loop inside `filepath.matchChunk`'s `[` case: `r` is
the character being matched (`NUL` when the match has already failed), `m`
accumulates whether any range matched, `seen` records whether at least one
range has been parsed (`nrange > 0`).  Returns the match flag and the chunk
remaining after the closing `]`. -/
def parseRanges (r : Char) (chunk : GoStr) (m : Bool) (seen : Bool) :
    Option (Bool × GoStr) :=
  if chunk.head? = some ']' ∧ seen = true then
    some (m, chunk.tail)
  else
    match hg : getEsc chunk with
    | none => none
    | some (lo, c1) =>
      match c1, hg with
      | '-' :: c1t, hgm =>
        match hg2 : getEsc c1t with
        | none => none
        | some (hi, c2) => parseRanges r c2 (m || (lo ≤ r && r ≤ hi)) true
      | c1x, hgx => parseRanges r c1x (m || (lo ≤ r && r ≤ lo)) true
  termination_by chunk.length
  decreasing_by
  · have h1 := getEsc_length chunk lo ('-' :: c1t) hgm
    have h2 := getEsc_length c1t hi c2 hg2
    simp at h1
    omega
  · have h1 := getEsc_length chunk lo c1x hgx
    omega

lemma parseRanges_length_aux (r : Char) :
    ∀ (n : Nat) (chunk : GoStr) (m seen : Bool) (m2 : Bool) (c2 : GoStr),
      chunk.length ≤ n → parseRanges r chunk m seen = some (m2, c2) →
      c2.length ≤ chunk.length := by
  intro n
  induction n with
  | zero =>
    intro chunk m seen m2 c2 hle h
    rw [parseRanges] at h
    split at h
    · obtain ⟨rfl, rfl⟩ : m = m2 ∧ chunk.tail = c2 := by simpa using h
      cases chunk <;> simp
    · split at h
      · exact absurd h (by simp)
      · next lo c1 hg =>
        have := getEsc_length chunk lo c1 hg
        omega
  | succ n ih =>
    intro chunk m seen m2 c2 hle h
    rw [parseRanges] at h
    split at h
    · obtain ⟨rfl, rfl⟩ : m = m2 ∧ chunk.tail = c2 := by simpa using h
      cases chunk <;> simp
    · split at h
      · exact absurd h (by simp)
      · next lo c1 hg =>
        split at h
        · rename_i c1t
          split at h
          · exact absurd h (by simp)
          · rename_i hi c2x hg2
            have h1 := getEsc_length chunk lo ('-' :: c1t) hg
            have h2 := getEsc_length c1t hi c2x hg2
            have h3 := ih c2x _ _ _ _ (by simp at h1; omega) h
            simp at h1
            omega
        · rename_i c1x cOld hgOld hne
          have h1 := getEsc_length chunk lo c1x hg
          have h3 := ih c1x _ _ _ _ (by omega) h
          omega

lemma parseRanges_length (r : Char) (chunk : GoStr) (m seen : Bool)
    (m2 : Bool) (c2 : GoStr) (h : parseRanges r chunk m seen = some (m2, c2)) :
    c2.length ≤ chunk.length :=
  parseRanges_length_aux r chunk.length chunk m seen m2 c2 le_rfl h

/-- The possibly-negated head of a character class: `negated` flag and the
class body after an optional leading `^`. -/
def classNeg (ctail : GoStr) : Bool × GoStr :=
  match ctail with
  | '^' :: t => (true, t)
  | _ => (false, ctail)

lemma classNeg_snd_le (ctail : GoStr) :
    (classNeg ctail).2.length ≤ ctail.length := by
  unfold classNeg
  split <;> simp

/-- `filepath.matchChunk`: match a star-free chunk against the beginning of
`s`; on success return the remainder of `s`.  After a mismatch the loop keeps
scanning the chunk so that a malformed pattern is still reported.  `none`
models `ErrBadPattern`. -/
def matchChunk (chunk s : GoStr) (failed : Bool) : Option (GoStr × Bool) :=
  match chunk with
  | [] => if failed then some ([], false) else some (s, true)
  | c0 :: ctail =>
    let failed := failed || s.isEmpty
    if c0 = '[' then
      let r := if failed then Char.ofNat 0 else s.headD (Char.ofNat 0)
      let s2 := if failed then s else s.tail
      let nc := classNeg ctail
      match hp : parseRanges r nc.2 false false with
      | none => none
      | some (m, c2) => matchChunk c2 s2 (failed || (m == nc.1))
    else if c0 = '?' then
      if failed then matchChunk ctail s true
      else matchChunk ctail s.tail (s.headD (Char.ofNat 0) == Separator)
    else if c0 = '\\' then
      match ctail with
      | [] => none
      | c1 :: ctail2 =>
        if failed then matchChunk ctail2 s true
        else matchChunk ctail2 s.tail (!(c1 == s.headD (Char.ofNat 0)))
    else
      if failed then matchChunk ctail s true
      else matchChunk ctail s.tail (!(c0 == s.headD (Char.ofNat 0)))
  termination_by chunk.length
  decreasing_by
  · have h1 := parseRanges_length r (classNeg ctail).2 false false m c2 hp
    have h2 := classNeg_snd_le ctail
    simp
    omega
  all_goals simp
  all_goals omega

/-- Evaluation of `scanBody` on a head character that is not one of the four
special characters. -/
lemma scanBody_default (c : Char) (rest : GoStr) (inr : Bool)
    (h1 : c ≠ '\\') (h2 : c ≠ '[') (h3 : c ≠ ']') (h4 : c ≠ '*') :
    scanBody (c :: rest) inr =
      ((c :: (scanBody rest inr).1), (scanBody rest inr).2) := by
  rw [scanBody.eq_def]
  split <;> simp_all

lemma scanBody_rest_le :
    ∀ (p : GoStr) (inr : Bool), (scanBody p inr).2.length ≤ p.length := by
  intro p inr
  induction p, inr using scanBody.induct with
  | case1 => simp [scanBody]
  | case2 => simp [scanBody]
  | case3 inr c rest2 ih => simp [scanBody]; omega
  | case4 rest inr ih => simp [scanBody]; omega
  | case5 rest inr ih => simp [scanBody]; omega
  | case6 rest ih => simp [scanBody]; omega
  | case7 rest inr hin =>
    rw [scanBody.eq_def]
    simp at hin
    simp [hin]
  | case8 c rest inr h1 h2 h3 h4 ih =>
    rw [scanBody_default c rest inr (by simpa using h1) (by simpa using h2)
      (by simpa using h3) (by simpa using h4)]
    simpa using Nat.le_succ_of_le ih

/-- `scanBody` splits the pattern: chunk and rest have the pattern's total
length. -/
lemma scanBody_length_split :
    ∀ (p : GoStr) (inr : Bool),
      (scanBody p inr).1.length + (scanBody p inr).2.length = p.length := by
  intro p inr
  induction p, inr using scanBody.induct with
  | case1 => simp [scanBody]
  | case2 => simp [scanBody]
  | case3 inr c rest2 ih => simp [scanBody]; omega
  | case4 rest inr ih => simp [scanBody]; omega
  | case5 rest inr ih => simp [scanBody]; omega
  | case6 rest ih => simp [scanBody]; omega
  | case7 rest inr hin =>
    rw [scanBody.eq_def]
    simp at hin
    simp [hin]
  | case8 c rest inr h1 h2 h3 h4 ih =>
    rw [scanBody_default c rest inr (by simpa using h1) (by simpa using h2)
      (by simpa using h3) (by simpa using h4)]
    simp at ih ⊢
    omega

/-- When the head of the pattern is not an unbracketed `*`, the chunk
`scanBody` returns is nonempty. -/
lemma scanBody_chunk_ne (c : Char) (rest : GoStr) (inr : Bool)
    (h : c ≠ '*' ∨ inr = true) :
    (scanBody (c :: rest) inr).1 ≠ [] := by
  rw [scanBody.eq_def]
  split <;> simp_all
  split <;> simp

/-- Outcome of the star inner loop of `filepath.Match`: bad pattern, no
position matched (fall through to validation), or resume the outer loop with
the given remainder of the name. -/
inductive StarOut where
  | bad
  | noMatch
  | resume (t : GoStr)

/-- The inner loop of `filepath.Match` when the chunk is preceded by `*`:
try to match the chunk at every later position of the name, never skipping
past a separator. -/
def starLoop (chunk rest : GoStr) : GoStr → StarOut
  | [] => .noMatch
  | a :: as =>
    if a == Separator then .noMatch
    else
      match matchChunk chunk as false with
      | none => .bad
      | some (t, ok) =>
        if ok then
          if rest.isEmpty && !t.isEmpty then starLoop chunk rest as
          else .resume t
        else starLoop chunk rest as

/-- The rest returned by `scanChunk` on a nonempty pattern is strictly
shorter than the pattern: the match loop terminates. -/
lemma scanChunk_rest_lt (p : GoStr) (hne : p ≠ []) :
    (scanChunk p).2.2.length < p.length := by
  unfold scanChunk
  cases p with
  | nil => exact absurd rfl hne
  | cons c t =>
    by_cases hc : c = '*'
    · subst hc
      simp only [List.dropWhile]
      have hd : (List.dropWhile (fun x => x == '*') t).length ≤ t.length :=
        (List.dropWhile_sublist _).length_le
      have h1 := scanBody_rest_le (List.dropWhile (fun x => x == '*') t) false
      simp only [beq_self_eq_true]
      simp
      omega
    · have hbeq : (c == '*') = false := by simp [hc]
      have hs : List.dropWhile (fun x => x == '*') (c :: t) = c :: t := by
        simp [List.dropWhile, hbeq]
      rw [hs]
      have h1 := scanBody_rest_le t false
      have h2 := scanBody_chunk_ne c t false (Or.inl hc)
      -- the chunk consumed at least the head character
      have hlen : (scanBody (c :: t) false).1.length +
          (scanBody (c :: t) false).2.length = (c :: t).length := by
        exact scanBody_length_split (c :: t) false
      have : (scanBody (c :: t) false).1.length ≥ 1 := by
        cases hh : (scanBody (c :: t) false).1 with
        | nil => exact absurd hh h2
        | cons a b => simp
      simp at hlen ⊢
      omega

/-- The validation loop at the end of `filepath.Match`: before returning
`false` with no error, check that the remainder of the pattern is
syntactically valid (by matching each chunk against the name `"1"`). -/
def validateRest (p : GoStr) : Option Bool :=
  match hne : p with
  | [] => some false
  | _ :: _ =>
    match hsc : scanChunk p with
    | (_, chunk, rest) =>
      match matchChunk chunk ['1'] false with
      | none => none
      | some _ => validateRest rest
  termination_by p.length
  decreasing_by
    have := scanChunk_rest_lt p (by rw [hne]; simp)
    rw [hsc, hne] at this
    simpa using this

/-- `filepath.Match` (non-Windows): glob-match `pattern` against `name`.
`none` models `ErrBadPattern`; `some b` models `(b, nil)`. -/
def filepathMatch (pattern name : GoStr) : Option Bool :=
  match hne : pattern with
  | [] => some name.isEmpty
  | _ :: _ =>
    match hsc : scanChunk pattern with
    | (star, chunk, rest) =>
      if star && chunk.isEmpty then some (!goContains name [Separator])
      else
        match matchChunk chunk name false with
        | some (t, true) =>
          if t.isEmpty || !rest.isEmpty then filepathMatch rest t
          else if star then
            match starLoop chunk rest name with
            | .bad => none
            | .resume t2 => filepathMatch rest t2
            | .noMatch => validateRest rest
          else validateRest rest
        | some (_, false) =>
          if star then
            match starLoop chunk rest name with
            | .bad => none
            | .resume t2 => filepathMatch rest t2
            | .noMatch => validateRest rest
          else validateRest rest
        | none => none
  termination_by pattern.length
  decreasing_by
  all_goals
    have := scanChunk_rest_lt pattern (by rw [hne]; simp)
    rw [hsc, hne] at this
    simpa using this

/-- `DB.Query`: glob-based query.  A dotless pattern is a category selector
(exact name first, then glob over category names); a dotted pattern matches
category part and key part as globs, and a glob syntax error on either part
falls back to literal equality for that comparison. `_desc` fields are always
excluded. -/
def Query (db : DB) (pattern : GoStr) : List Field :=
  if !pattern.contains '.' then
    match db.Categories.find? (fun cat => cat.Name == pattern) with
    | some cat => cat.Fields.filter (fun f => !IsDescKey f.Key)
    | none =>
      db.Categories.flatMap fun cat =>
        match filepathMatch pattern cat.Name with
        | some true => cat.Fields.filter (fun f => !IsDescKey f.Key)
        | _ => []
  else
    match splitFirstDot pattern with
    | none => []
    | some (catPattern, keyPattern) =>
      db.Categories.flatMap fun cat =>
        let catMatched :=
          match filepathMatch catPattern cat.Name with
          | none => catPattern == cat.Name
          | some b => b
        if catMatched then
          cat.Fields.filter fun f =>
            !IsDescKey f.Key &&
              (match filepathMatch keyPattern f.Key with
               | none => keyPattern == f.Key
               | some b => b)
        else []

/-- Verification-side matcher written from the spec's words: glob match, and
on a glob syntax error fall back to exact string equality for that one
comparison. -/
def matchOrEq (p n : GoStr) : Bool :=
  match filepathMatch p n with
  | none => p == n
  | some b => b

/-- Verification-side rendering of `Query` in which *every* name comparison,
in both the category-glob branch and the dotted branch, is `matchOrEq`:
the behaviour the spec describes for malformed patterns. -/
def QueryFallback (db : DB) (pattern : GoStr) : List Field :=
  if !pattern.contains '.' then
    match db.Categories.find? (fun cat => cat.Name == pattern) with
    | some cat => cat.Fields.filter (fun f => !IsDescKey f.Key)
    | none =>
      db.Categories.flatMap fun cat =>
        if matchOrEq pattern cat.Name then
          cat.Fields.filter (fun f => !IsDescKey f.Key)
        else []
  else
    match splitFirstDot pattern with
    | none => []
    | some (catPattern, keyPattern) =>
      db.Categories.flatMap fun cat =>
        if matchOrEq catPattern cat.Name then
          cat.Fields.filter fun f =>
            !IsDescKey f.Key && matchOrEq keyPattern f.Key
        else []

/-! ### `internal/store/merge.go` -/

/-- `store.mergeCategory`: merge fields from a local category into a global
category.  A Go map is built from the global fields and overlaid with the
local fields (so the binding for a key is the last field with that key in
global-then-local order), and the union of keys is sorted alphabetically. -/
def mergeCategory (global locl : Category) : Category :=
  let all := global.Fields ++ locl.Fields
  let keys := sortStrs ((all.map Field.Key).dedup)
  { Name := global.Name
    Fields := keys.filterMap fun k => all.reverse.find? (fun f => f.Key == k) }

/-- `store.Merge`: merge a local override DB into a global DB.  The category
name sets of both inputs are united and sorted; a category present in one
input is copied through, a category present in both is merged at key level.
(The Go code indexes categories by name with a last-write-wins map; hence the
`reverse.find?`.) -/
def Merge (global locl : DB) : DB :=
  let catNames :=
    sortStrs (((global.Categories ++ locl.Categories).map Category.Name).dedup)
  { Categories := catNames.filterMap fun n =>
      match global.Categories.reverse.find? (fun c => c.Name == n),
            locl.Categories.reverse.find? (fun c => c.Name == n) with
      | some gc, none => some gc
      | none, some lc => some lc
      | some gc, some lc => some (mergeCategory gc lc)
      | none, none => none }

/-! ### `internal/store/load.go` (after `toml.Unmarshal`) and
`internal/store/template.go` -/

/-- First-match lookup in an association list (a Go map read; the raw
documents produced by `toml.Unmarshal` have unique keys). -/
def lookupRaw {α : Type} (l : List (GoStr × α)) (k : GoStr) : Option α :=
  (l.find? (fun p => p.1 == k)).map Prod.snd

/-- `store.DefaultDescriptions`: built-in fallback descriptions keyed by
category then field name. -/
def DefaultDescriptions : List (GoStr × List (GoStr × GoStr)) :=
  [ (gs "identity",
     [ (gs "name", gs "Full legal name"),
       (gs "aka", gs "Known aliases and nicknames"),
       (gs "pronouns", gs "Personal pronouns") ]),
    (gs "contact",
     [ (gs "email", gs "Primary email address"),
       (gs "phone", gs "Phone number") ]),
    (gs "web",
     [ (gs "github", gs "GitHub username"),
       (gs "blog", gs "Personal blog URL"),
       (gs "website", gs "Personal website URL"),
       (gs "mastodon", gs "Mastodon handle"),
       (gs "twitter", gs "Twitter/X handle"),
       (gs "linkedin", gs "LinkedIn profile URL"),
       (gs "bluesky", gs "Bluesky handle") ]),
    (gs "academic",
     [ (gs "orcid", gs "ORCID persistent digital identifier"),
       (gs "institution", gs "Academic institution"),
       (gs "title", gs "Academic title or position"),
       (gs "research_interests", gs "Research interest areas"),
       (gs "scholar", gs "Google Scholar ID") ]),
    (gs "education",
     [ (gs "degrees", gs "Completed degrees with institution and year"),
       (gs "field", gs "Primary field of study"),
       (gs "institution", gs "Degree-granting institution") ]) ]

/-- The `DefaultDescriptions[catName][key]` double lookup. -/
def defaultDescFor (cat key : GoStr) : Option GoStr :=
  (lookupRaw DefaultDescriptions cat).bind fun catDescs =>
    lookupRaw catDescs key

/-- A raw document as produced by `toml.Unmarshal` into
`map[string]interface{}`: top-level keys mapped to values, where a category
is a `Value.table`. -/
abbrev RawDoc := List (GoStr × Value)

/-- `store.LoadFile` after `toml.Unmarshal`: each top-level key whose value
is a table becomes a category; within it, non-`_desc` keys are collected and
sorted, each paired with its `<key>_desc` companion's string value when
present, else with the built-in default description; a category with no
fields is dropped; category names are sorted. -/
def loadDB (raw : RawDoc) : DB :=
  let catNames := sortStrs ((raw.map Prod.fst).dedup)
  { Categories := catNames.filterMap fun catName =>
      match lookupRaw raw catName with
      | some (Value.table catMap) =>
        let keys :=
          sortStrs (((catMap.map Prod.fst).filter (fun k => !IsDescKey k)).dedup)
        let fields := keys.filterMap fun key =>
          (lookupRaw catMap key).map fun v =>
            let desc0 :=
              match lookupRaw catMap (key ++ gs "_desc") with
              | some (Value.str s) => s
              | _ => []
            let desc :=
              if desc0 = [] then
                match defaultDescFor catName key with
                | some d => d
                | none => []
              else desc0
            Field.mk key v desc catName
        if fields.isEmpty then none else some (Category.mk catName fields)
      | _ => none }

/-! ### `internal/commands/diff.go` -/

/-- A row of `deets diff` output. -/
structure DiffEntry where
  Path : GoStr
  Status : GoStr
  GlobalVal : GoStr
  LocalVal : GoStr

/-- `commands.computeDiff`: for every non-`_desc` field of the local DB, in
local's order, look the same `category.key` path up in the global DB and
emit an `"override"` entry when both exist with different display text, a
`"local-only"` entry when the path is absent globally, and nothing when the
display texts coincide. -/
def computeDiff (globalDB localDB : DB) : List DiffEntry :=
  localDB.Categories.flatMap fun cat =>
    cat.Fields.filterMap fun f =>
      if IsDescKey f.Key then none
      else
        let path := cat.Name ++ '.' :: f.Key
        let localVal := FormatValue f.Value
        match GetField globalDB path with
        | some globalField =>
          let globalVal := FormatValue globalField.Value
          if globalVal ≠ localVal then
            some { Path := path, Status := gs "override",
                   GlobalVal := globalVal, LocalVal := localVal }
          else none
        | none =>
          some { Path := path, Status := gs "local-only",
                 GlobalVal := [], LocalVal := localVal }

/-- Verification-side rendering of the diff contract as the spec words it:
presence of a path in the global database is stated structurally (first
category of that name, first field of that key), not through path-string
splitting. -/
def computeDiffSpec (globalDB localDB : DB) : List DiffEntry :=
  localDB.Categories.flatMap fun cat =>
    cat.Fields.filterMap fun f =>
      if IsDescKey f.Key then none
      else
        let path := cat.Name ++ '.' :: f.Key
        let localVal := FormatValue f.Value
        match dbFind globalDB cat.Name f.Key with
        | some globalField =>
          let globalVal := FormatValue globalField.Value
          if globalVal ≠ localVal then
            some { Path := path, Status := gs "override",
                   GlobalVal := globalVal, LocalVal := localVal }
          else none
        | none =>
          some { Path := path, Status := gs "local-only",
                 GlobalVal := [], LocalVal := localVal }

/-! ### Helper lemmas -/

lemma goContains_nil (s : GoStr) : goContains s [] = true := by
  cases s <;> simp [goContains]

lemma beq_symm_gostr (a b : GoStr) : (a == b) = (b == a) := by
  by_cases h : a = b
  · subst h; rfl
  · rw [beq_eq_false_iff_ne.mpr h, beq_eq_false_iff_ne.mpr (Ne.symm h)]

/-- The category-glob loop of `Query` coincides with its fallback-matcher
rendering whenever no category name equals the pattern (which is exactly
when the loop runs, the exact-name loop having come first). -/
lemma globLoop_eq_fallback (p : GoStr) :
    ∀ (l : List Category), (∀ c ∈ l, (c.Name == p) = false) →
      (l.flatMap fun cat =>
        match filepathMatch p cat.Name with
        | some true => cat.Fields.filter (fun f => !IsDescKey f.Key)
        | _ => []) =
      (l.flatMap fun cat =>
        if matchOrEq p cat.Name then
          cat.Fields.filter (fun f => !IsDescKey f.Key)
        else []) := by
  intro l h
  induction l with
  | nil => rfl
  | cons c t ih =>
    simp only [List.flatMap_cons]
    rw [ih (fun x hx => h x (List.mem_cons_of_mem c hx))]
    have hc := h c (List.mem_cons_self c t)
    have hfb : matchOrEq p c.Name =
        (match filepathMatch p c.Name with
         | some true => true
         | some false => false
         | none => false) := by
      unfold matchOrEq
      cases hm : filepathMatch p c.Name with
      | none =>
        rw [beq_symm_gostr]
        simp [hc]
      | some b => cases b <;> rfl
    cases hm : filepathMatch p c.Name with
    | none => rw [hfb]; simp [hm]
    | some b => cases b <;> rw [hfb] <;> simp [hm]

/-! ### C6: malformed-glob fallback -/

/-- C6.  Query never raises: in the model it is a total function into
`List Field`, mirroring the Go signature, which returns no error.  Moreover
`Query` coincides with `QueryFallback`, the rendering in which every single
name comparison is "glob match, and on a glob syntax error exact string
equality for that one comparison" — so each comparison whose glob match
fails with a syntax error degrades to literal equality and nothing else
changes. -/
theorem query_malformed_glob_fallback (db : DB) (pattern : GoStr) :
    Query db pattern = QueryFallback db pattern := by
  unfold Query QueryFallback
  split
  · -- dotless pattern
    cases hfind : db.Categories.find? (fun cat => cat.Name == pattern) with
    | some cat => rfl
    | none =>
      have hall := List.find?_eq_none.mp hfind
      exact globLoop_eq_fallback pattern db.Categories
        (fun c hc => by simpa using hall c hc)
  · -- dotted pattern: the two bodies are definitionally the same
    rfl

lemma splitFirstDot_cons_ne (a : Char) (r : GoStr) (ha : a ≠ '.') :
    splitFirstDot (a :: r) =
      (splitFirstDot r).map (fun p => (a :: p.1, p.2)) := by
  rw [splitFirstDot.eq_def]
  split <;> simp_all

/-- Splitting `c ++ "." ++ k` at the first dot recovers `(c, k)` when `c`
itself has no dot. -/
lemma splitFirstDot_append (c k : GoStr) (h : '.' ∉ c) :
    splitFirstDot (c ++ '.' :: k) = some (c, k) := by
  induction c with
  | nil => rfl
  | cons a t ih =>
    have ha : a ≠ '.' := fun e => h (e ▸ List.mem_cons_self a t)
    have ht : '.' ∉ t := fun e => h (List.mem_cons_of_mem a e)
    rw [List.cons_append, splitFirstDot_cons_ne a _ ha, ih ht]
    rfl

/-- `GetField` on a path whose category part is dot-free is the structural
lookup. -/
lemma getField_eq_dbFind (db : DB) (c k : GoStr) (h : '.' ∉ c) :
    GetField db (c ++ '.' :: k) = dbFind db c k := by
  unfold GetField dbFind
  rw [splitFirstDot_append c k h]
  cases hf : db.Categories.find? (fun cat => cat.Name == c) <;> simp [hf]

/-! ### C5: diff semantics -/

/-- C5.  `computeDiff` realises the specified diff contract: it iterates
every non-description field of `local` in local's category-then-field order;
for a path structurally present in both databases it emits an `"override"`
entry carrying both rendered display values exactly when the two rendered
texts differ, for a path present only in `local` it emits a `"local-only"`
entry, and for identical rendered texts it emits nothing
(`computeDiffSpec`).  The hypothesis that local category names contain no
dot is what makes the `category.key` path unambiguous. -/
theorem computeDiff_spec (globalDB localDB : DB)
    (h : ∀ cat ∈ localDB.Categories, '.' ∉ cat.Name) :
    computeDiff globalDB localDB = computeDiffSpec globalDB localDB := by
  unfold computeDiff computeDiffSpec
  apply List.flatMap_congr
  intro cat hcat
  apply List.filterMap_congr
  intro f _
  simp only [getField_eq_dbFind globalDB cat.Name f.Key (h cat hcat)]

/-- Concrete instance for the witness: spec scenario 5. -/
def exDiffGlobal : DB :=
  ⟨[⟨gs "identity", [⟨gs "name", .str (gs "Alice"), [], gs "identity"⟩]⟩]⟩

/-- Concrete instance for the witness: spec scenario 5, local side. -/
def exDiffLocal : DB :=
  ⟨[⟨gs "identity", [⟨gs "name", .str (gs "Bob"), [], gs "identity"⟩]⟩]⟩

theorem computeDiff_spec_witness :
    (∀ cat ∈ exDiffLocal.Categories, '.' ∉ cat.Name) ∧
      computeDiff exDiffGlobal exDiffLocal =
        computeDiffSpec exDiffGlobal exDiffLocal :=
  ⟨by decide, computeDiff_spec exDiffGlobal exDiffLocal (by decide)⟩

lemma mem_sortStrs {a : GoStr} {l : List GoStr} : a ∈ sortStrs l ↔ a ∈ l :=
  (List.perm_insertionSort _ l).mem_iff

/-- Every field of a loaded database has a non-`_desc` key: the loader
filters companion keys out before building fields. -/
lemma loadDB_no_desc (raw : RawDoc) :
    ∀ cat ∈ (loadDB raw).Categories, ∀ f ∈ cat.Fields, IsDescKey f.Key = false := by
  intro cat hcat f hf
  unfold loadDB at hcat
  simp only [List.mem_filterMap] at hcat
  obtain ⟨catName, _, hF⟩ := hcat
  split at hF
  · next catMap heq =>
    split at hF
    · exact absurd hF (by simp)
    · next hne =>
      obtain rfl : Category.mk catName _ = cat := by
        injection hF with h1
      simp only [List.mem_filterMap] at hf
      obtain ⟨key, hkey, hG⟩ := hf
      obtain ⟨v, hv, rfl⟩ : ∃ v, lookupRaw catMap key = some v ∧ _ = f := by
        cases hl : lookupRaw catMap key with
        | none => rw [hl] at hG; exact absurd hG (by simp)
        | some v => rw [hl] at hG; exact ⟨v, rfl, by simpa using hG⟩
      rw [mem_sortStrs, List.mem_dedup, List.mem_filter] at hkey
      simpa using hkey.2
  · exact absurd hF (by simp)

/-- Splitting a path that ends in `"." ++ k` yields a key part that has `k`
as a suffix. -/
lemma splitFirstDot_suffix (c k : GoStr) :
    ∃ c2 k2, splitFirstDot (c ++ '.' :: k) = some (c2, k2) ∧ k <:+ k2 := by
  induction c with
  | nil => exact ⟨[], k, rfl, List.suffix_refl k⟩
  | cons a t ih =>
    obtain ⟨c2, k2, hsplit, hsuf⟩ := ih
    by_cases ha : a = '.'
    · subst ha
      exact ⟨[], t ++ '.' :: k, rfl, by
        exact ⟨t ++ ['.'], by simp⟩⟩
    · refine ⟨a :: c2, k2, ?_, hsuf⟩
      rw [List.cons_append, splitFirstDot_cons_ne a _ ha, hsplit]
      rfl

lemma isDescKey_of_suffix {k k2 : GoStr} (h : k <:+ k2)
    (hd : IsDescKey k = true) : IsDescKey k2 = true := by
  unfold IsDescKey at hd ⊢
  rw [List.isSuffixOf_iff_suffix] at hd ⊢
  exact hd.trans h

/-! ### C8: loaded databases contain no description-companion fields -/

/-- C8.  A database produced by `LoadFile` contains no field whose key ends
in `"_desc"` — companion keys are consumed into the `Desc` of their base
field and never materialised as fields — and therefore `GetField` applied to
any literal `_desc`-suffixed path on a loaded database returns not-found,
even though `GetField` itself performs no filtering. -/
theorem loadFile_desc_paths_not_found (raw : RawDoc) :
    (∀ cat ∈ (loadDB raw).Categories, ∀ f ∈ cat.Fields, IsDescKey f.Key = false) ∧
    (∀ c k : GoStr, IsDescKey k = true →
      GetField (loadDB raw) (c ++ '.' :: k) = none) := by
  refine ⟨loadDB_no_desc raw, ?_⟩
  intro c k hk
  obtain ⟨c2, k2, hsplit, hsuf⟩ := splitFirstDot_suffix c k
  have hk2 := isDescKey_of_suffix hsuf hk
  unfold GetField
  rw [hsplit]
  cases hf : (loadDB raw).Categories.find? (fun cat => cat.Name == c2) with
  | none => simp [hf]
  | some cat =>
    have hmem := List.mem_of_find?_eq_some hf
    simp only [hf]
    apply List.find?_eq_none.mpr
    intro f hfmem
    have hnd := loadDB_no_desc raw cat hmem f hfmem
    intro hbeq
    have : f.Key = k2 := by simpa using hbeq
    rw [this, hk2] at hnd
    exact absurd hnd (by simp)

/-- Concrete raw document for the C8 witness. -/
def exRaw : RawDoc :=
  [(gs "identity",
    .table [(gs "name", .str (gs "Alexander Towell")),
            (gs "name_desc", .str (gs "Full legal name"))])]

theorem loadFile_desc_paths_not_found_witness :
    IsDescKey (gs "name_desc") = true ∧
      GetField (loadDB exRaw) (gs "identity" ++ '.' :: gs "name_desc") = none :=
  ⟨by decide,
   (loadFile_desc_paths_not_found exRaw).2 (gs "identity") (gs "name_desc")
     (by decide)⟩

/-! ### Glob matching on literal patterns -/

lemma scanBody_literal (p : GoStr) (h1 : '*' ∉ p) (h2 : '[' ∉ p)
    (h3 : '\\' ∉ p) : ∀ inr, scanBody p inr = (p, []) := by
  induction p with
  | nil => intro inr; simp [scanBody]
  | cons a t ih =>
    intro inr
    have ha1 : a ≠ '*' := fun e => h1 (e ▸ List.mem_cons_self a t)
    have ha2 : a ≠ '[' := fun e => h2 (e ▸ List.mem_cons_self a t)
    have ha3 : a ≠ '\\' := fun e => h3 (e ▸ List.mem_cons_self a t)
    have ht1 : '*' ∉ t := fun e => h1 (List.mem_cons_of_mem a e)
    have ht2 : '[' ∉ t := fun e => h2 (List.mem_cons_of_mem a e)
    have ht3 : '\\' ∉ t := fun e => h3 (List.mem_cons_of_mem a e)
    by_cases ha : a = ']'
    · subst ha
      show scanBody (']' :: t) inr = _
      simp only [scanBody, ih ht1 ht2 ht3 false]
    · rw [scanBody_default a t inr ha3 ha2 ha ha1, ih ht1 ht2 ht3 inr]

lemma scanChunk_literal (p : GoStr) (h1 : '*' ∉ p) (h2 : '[' ∉ p)
    (h3 : '\\' ∉ p) : scanChunk p = (false, p, []) := by
  cases p with
  | nil => rfl
  | cons a t =>
    have ha1 : a ≠ '*' := fun e => h1 (e ▸ List.mem_cons_self a t)
    have hbeq : (a == '*') = false := by simp [ha1]
    unfold scanChunk
    rw [List.dropWhile_cons]
    simp only [hbeq, Bool.false_eq_true, if_false,
      scanBody_literal _ h1 h2 h3 false]
    split <;> simp_all

lemma matchChunk_literal_failed (p : GoStr) (h2 : '[' ∉ p) (h3 : '\\' ∉ p) :
    ∀ s, matchChunk p s true = some ([], false) := by
  induction p with
  | nil => intro s; simp [matchChunk]
  | cons a t ih =>
    intro s
    have ha2 : a ≠ '[' := fun e => h2 (e ▸ List.mem_cons_self a t)
    have ha3 : a ≠ '\\' := fun e => h3 (e ▸ List.mem_cons_self a t)
    have ht2 : '[' ∉ t := fun e => h2 (List.mem_cons_of_mem a e)
    have ht3 : '\\' ∉ t := fun e => h3 (List.mem_cons_of_mem a e)
    rw [matchChunk.eq_def]
    simp only [Bool.true_or, ha2, ha3, if_false]
    by_cases hq : a = '?'
    · simp only [hq, if_true]
      exact ih ht2 ht3 s
    · simp only [hq, if_false, if_true]
      exact ih ht2 ht3 s

lemma matchChunk_literal (p : GoStr) (h2 : '[' ∉ p) (h3 : '\\' ∉ p)
    (hq : '?' ∉ p) :
    ∀ s, matchChunk p s false =
      if p.isPrefixOf s then some (s.drop p.length, true)
      else some ([], false) := by
  induction p with
  | nil => intro s; simp [matchChunk]
  | cons a t ih =>
    intro s
    have ha2 : a ≠ '[' := fun e => h2 (e ▸ List.mem_cons_self a t)
    have ha3 : a ≠ '\\' := fun e => h3 (e ▸ List.mem_cons_self a t)
    have haq : a ≠ '?' := fun e => hq (e ▸ List.mem_cons_self a t)
    have ht2 : '[' ∉ t := fun e => h2 (List.mem_cons_of_mem a e)
    have ht3 : '\\' ∉ t := fun e => h3 (List.mem_cons_of_mem a e)
    have htq : '?' ∉ t := fun e => hq (List.mem_cons_of_mem a e)
    cases s with
    | nil =>
      rw [matchChunk.eq_def]
      simp only [List.isEmpty_nil, Bool.or_true, ha2, ha3, haq, if_false,
        if_true]
      rw [matchChunk_literal_failed t ht2 ht3]
      simp [List.isPrefixOf]
    | cons b bs =>
      rw [matchChunk.eq_def]
      simp only [List.isEmpty_cons, Bool.or_false, ha2, ha3, haq, if_false,
        Bool.false_eq_true]
      by_cases hab : a = b
      · subst hab
        simp only [List.headD, beq_self_eq_true, Bool.not_true,
          List.tail_cons]
        rw [ih ht2 ht3 htq bs]
        simp [List.isPrefixOf]
      · have : (a == b) = false := by simp [hab]
        simp only [List.headD, this, Bool.not_false, List.tail_cons]
        rw [matchChunk_literal_failed t ht2 ht3]
        simp [List.isPrefixOf, this]

/-- A pattern containing none of the glob metacharacters matches exactly
itself: `filepath.Match` on a literal pattern is string equality (and never
errors). -/
lemma filepathMatch_literal (p n : GoStr) (h1 : '*' ∉ p) (h2 : '[' ∉ p)
    (h3 : '\\' ∉ p) (hq : '?' ∉ p) :
    filepathMatch p n = some (p == n) := by
  cases p with
  | nil =>
    rw [filepathMatch.eq_def]
    cases n <;> simp
  | cons a t =>
    rw [filepathMatch.eq_def]
    simp only []
    rw [scanChunk_literal (a :: t) h1 h2 h3]
    simp only [Bool.false_and, Bool.false_eq_true, if_false]
    rw [matchChunk_literal (a :: t) h2 h3 hq n]
    by_cases hpre : (a :: t).isPrefixOf n
    · simp only [hpre, if_true]
      obtain ⟨r, rfl⟩ : ∃ r, n = (a :: t) ++ r :=
        (List.isPrefixOf_iff_prefix.mp hpre).imp (fun r h => h.symm)
      cases r with
      | nil =>
        simp only [List.append_nil, List.drop_length, List.isEmpty_nil,
          Bool.true_or, if_true]
        rw [filepathMatch.eq_def]
        simp
      | cons x xs =>
        have hdrop : ((a :: t) ++ x :: xs).drop (a :: t).length = x :: xs :=
          List.drop_left ..
        rw [hdrop]
        simp only [List.isEmpty_cons, List.isEmpty_nil, Bool.not_true,
          Bool.or_false, Bool.false_eq_true, if_false]
        have : ((a :: t) == (a :: t) ++ x :: xs) = false := by
          rw [beq_eq_false_iff_ne]
          intro e
          have := congrArg List.length e
          simp at this
        rw [this]
        rw [validateRest]
    · simp only [hpre, Bool.false_eq_true, if_false]
      have : ((a :: t) == n) = false := by
        rw [beq_eq_false_iff_ne]
        intro e
        subst e
        exact hpre (by simp [List.isPrefixOf_iff_prefix])
      rw [this]
      rw [validateRest]

/-- `filepath.Match` on the pattern `"*"`: matches exactly the names that
contain no separator. -/
lemma filepathMatch_star (n : GoStr) :
    filepathMatch ['*'] n = some (!goContains n [Separator]) := by
  rw [filepathMatch.eq_def]
  rfl

lemma beq_symm_char (a b : Char) : (a == b) = (b == a) := by
  by_cases h : a = b
  · subst h; rfl
  · rw [beq_eq_false_iff_ne.mpr h, beq_eq_false_iff_ne.mpr (Ne.symm h)]

lemma goContains_singleton (s : GoStr) (c : Char) :
    goContains s [c] = s.contains c := by
  induction s with
  | nil => rfl
  | cons x xs ih =>
    simp only [goContains, List.isPrefixOf, List.contains_cons, ih]
    rw [beq_symm_char]
    simp

/-- A pattern string free of all four glob metacharacters. -/
abbrev GlobFree (p : GoStr) : Prop :=
  '*' ∉ p ∧ '?' ∉ p ∧ '[' ∉ p ∧ '\\' ∉ p

lemma filepathMatch_globFree (p n : GoStr) (h : GlobFree p) :
    filepathMatch p n = some (p == n) :=
  filepathMatch_literal p n h.1 h.2.2.1 h.2.2.2 h.2.1

lemma flatMap_eq_nil_of_all {α β : Type} (l : List α) (g : α → List β)
    (h : ∀ x ∈ l, g x = []) : l.flatMap g = [] := by
  induction l with
  | nil => rfl
  | cons a t ih =>
    rw [List.flatMap_cons, h a (List.mem_cons_self a t),
      ih (fun x hx => h x (List.mem_cons_of_mem a hx))]
    rfl

/-- With distinct category names, a flatMap guarded by name equality keeps
exactly the (unique) found category's contribution. -/
lemma flatMap_name_guard (C : GoStr) (X : Category → List Field)
    (cat0 : Category) :
    ∀ (l : List Category), (l.map Category.Name).Nodup →
      l.find? (fun c => c.Name == C) = some cat0 →
      (l.flatMap fun cat => if (C == cat.Name) = true then X cat else []) =
        X cat0 := by
  intro l
  induction l with
  | nil => intro _ h; exact absurd h (by simp)
  | cons c t ih =>
    intro hnd hfind
    rw [List.find?_cons] at hfind
    rw [List.flatMap_cons]
    by_cases hc : c.Name = C
    · have hbeq : (c.Name == C) = true := by simp [hc]
      rw [hbeq] at hfind
      obtain rfl : c = cat0 := by simpa using hfind
      have hrest : (t.flatMap fun cat =>
          if (C == cat.Name) = true then X cat else []) = [] := by
        apply flatMap_eq_nil_of_all
        intro x hx
        have hall : ∀ x ∈ t, ¬c.Name = x.Name := by
          simpa using (List.pairwise_cons.mp hnd).1
        have hne : C ≠ x.Name := fun e => hall x hx (hc.trans e)
        simp [beq_eq_false_iff_ne.mpr hne]
      rw [hrest, beq_iff_eq.mpr hc.symm]
      simp
    · have hbeq : (c.Name == C) = false := by simp [hc]
      rw [hbeq] at hfind
      have hcb : (C == c.Name) = false :=
        beq_eq_false_iff_ne.mpr (fun e => hc e.symm)
      rw [hcb]
      simp only [Bool.false_eq_true, if_false, List.nil_append]
      exact ih (List.Nodup.of_cons hnd) hfind

/-- With distinct keys, filtering on key equality (plus the non-description
guard) keeps exactly the (unique) found field. -/
lemma filter_key_guard (K : GoStr) (f : Field) (hdesc : IsDescKey K = false) :
    ∀ (l : List Field), (l.map Field.Key).Nodup →
      l.find? (fun g => g.Key == K) = some f →
      (l.filter fun g => !IsDescKey g.Key && (K == g.Key)) = [f] := by
  intro l
  induction l with
  | nil => intro _ h; exact absurd h (by simp)
  | cons c t ih =>
    intro hnd hfind
    rw [List.find?_cons] at hfind
    rw [List.filter_cons]
    by_cases hc : c.Key = K
    · have hbeq : (c.Key == K) = true := by simp [hc]
      rw [hbeq] at hfind
      obtain rfl : c = f := by simpa using hfind
      have hpred : (!IsDescKey c.Key && (K == c.Key)) = true := by
        simp [hc, hdesc]
      rw [hpred]
      have hrest : (t.filter fun g => !IsDescKey g.Key && (K == g.Key)) = [] := by
        rw [List.filter_eq_nil_iff]
        intro g hg
        have hall : ∀ x ∈ t, ¬c.Key = x.Key := by
          simpa using (List.pairwise_cons.mp hnd).1
        have hne : K ≠ g.Key := fun e => hall g hg (hc.trans e)
        simp [beq_eq_false_iff_ne.mpr hne]
      rw [hrest]
      simp
    · have hbeq : (c.Key == K) = false := by simp [hc]
      rw [hbeq] at hfind
      have hcb : (K == c.Key) = false :=
        beq_eq_false_iff_ne.mpr (fun e => hc e.symm)
      rw [hcb]
      simp only [Bool.and_false, Bool.false_eq_true, if_false]
      exact ih (List.Nodup.of_cons hnd) hfind

/-! ### C3: query exact-match round trip -/

/-- Concrete counterexample database for C3: one category `c` holding a
single field whose key is the `_desc`-suffixed `k_desc`. -/
def exC3DB : DB :=
  ⟨[⟨gs "c", [⟨gs "k_desc", .str (gs "v"), [], gs "c"⟩]⟩]⟩

/-- The field stored at path `c.k_desc` in `exC3DB`. -/
def exC3F : Field := ⟨gs "k_desc", .str (gs "v"), [], gs "c"⟩

/-- C3, counterexample.  The claim fails as stated: `exC3DB` stores the
field `exC3F` at path `c.k_desc` (the category named `c` holds a field with
key `k_desc`), yet `Query exC3DB "c.k_desc"` is empty, not `[exC3F]` —
`Query` unconditionally filters out `_desc`-suffixed keys. -/
theorem query_exact_path_counterexample :
    dbFind exC3DB (gs "c") (gs "k_desc") = some exC3F ∧
      Query exC3DB (gs "c.k_desc") ≠ [exC3F] := by
  constructor
  · rfl
  · have e1 : filepathMatch (gs "c") (gs "c") = some true := by
      rw [filepathMatch_globFree _ _ (by decide)]
      rfl
    have e2 : IsDescKey (gs "k_desc") = true := by decide
    have hquery : Query exC3DB (gs "c.k_desc") = [] := by
      show Query exC3DB (gs "c" ++ '.' :: gs "k_desc") = []
      unfold Query
      rw [if_neg (by decide)]
      rw [splitFirstDot_append _ _ (by decide)]
      simp only [exC3DB, List.flatMap_cons, List.flatMap_nil, e1, e2,
        Bool.not_true, Bool.false_and, List.filter_cons, List.filter_nil]
      simp
    rw [hquery]
    simp

/-- C3, amended.  For a database with distinct category names and distinct
keys per category, and a path `C.K` in which `C` and `K` contain no glob
metacharacters, `C` contains no dot, and `K` is not a `_desc` companion key,
`Query db (C ++ "." ++ K)` returns exactly the one-element list holding the
field stored at that path. -/
theorem query_exact_path_roundtrip (db : DB) (C K : GoStr) (f : Field)
    (hC : GlobFree C) (hCdot : '.' ∉ C) (hK : GlobFree K)
    (hKdesc : IsDescKey K = false)
    (hnames : (db.Categories.map Category.Name).Nodup)
    (hkeys : ∀ cat ∈ db.Categories, (cat.Fields.map Field.Key).Nodup)
    (hfind : dbFind db C K = some f) :
    Query db (C ++ '.' :: K) = [f] := by
  obtain ⟨cat0, hcat0, hf0⟩ :
      ∃ cat0, db.Categories.find? (fun c => c.Name == C) = some cat0 ∧
        cat0.Fields.find? (fun g => g.Key == K) = some f := by
    unfold dbFind at hfind
    cases hc : db.Categories.find? (fun c => c.Name == C) with
    | none => rw [hc] at hfind; exact absurd hfind (by simp)
    | some cat0 => rw [hc] at hfind; exact ⟨cat0, rfl, by simpa using hfind⟩
  unfold Query
  rw [if_neg (by
    have hmem : ((C ++ '.' :: K).contains '.') = true := by
      simp [List.elem_iff]
    simp [hmem])]
  rw [splitFirstDot_append _ _ hCdot]
  have hbody : (db.Categories.flatMap fun cat =>
      let catMatched := match filepathMatch C cat.Name with
        | none => C == cat.Name
        | some b => b
      if catMatched then
        cat.Fields.filter fun g =>
          !IsDescKey g.Key &&
            (match filepathMatch K g.Key with
             | none => K == g.Key
             | some b => b)
      else []) =
      (db.Categories.flatMap fun cat =>
        if (C == cat.Name) = true then
          cat.Fields.filter fun g => !IsDescKey g.Key && (K == g.Key)
        else []) := by
    apply List.flatMap_congr
    intro cat _
    rw [filepathMatch_globFree C cat.Name hC]
    simp only []
    congr 1
    apply List.filter_congr
    intro g _
    rw [filepathMatch_globFree K g.Key hK]
  show db.Categories.flatMap _ = [f]
  rw [hbody, flatMap_name_guard C _ cat0 db.Categories hnames hcat0]
  exact filter_key_guard K f hKdesc cat0.Fields
    (hkeys cat0 (List.mem_of_find?_eq_some hcat0)) hf0

/-- Concrete database for the C3 witness: spec concrete scenario 1. -/
def exC3GoodDB : DB :=
  ⟨[⟨gs "identity",
     [⟨gs "name", .str (gs "Alexander Towell"), gs "Full legal name",
       gs "identity"⟩]⟩]⟩

theorem query_exact_path_roundtrip_witness :
    GlobFree (gs "identity") ∧ GlobFree (gs "name") ∧
      Query exC3GoodDB (gs "identity" ++ '.' :: gs "name") =
        [⟨gs "name", .str (gs "Alexander Towell"), gs "Full legal name",
          gs "identity"⟩] :=
  ⟨by decide, by decide,
   query_exact_path_roundtrip exC3GoodDB (gs "identity") (gs "name") _
     (by decide) (by decide) (by decide) (by decide) (by decide)
     (by decide) rfl⟩

/-! ### C4: category shorthand equivalence -/

/-- Concrete counterexample database for C4: one category `c` holding a
single field whose key contains a path separator. -/
def exC4DB : DB :=
  ⟨[⟨gs "c", [⟨gs "a/b", .str (gs "v"), [], gs "c"⟩]⟩]⟩

/-- C4, counterexample.  The claim fails as stated: `c` is a category name
of `exC4DB`, but `Query exC4DB "c"` returns its one field while
`Query exC4DB "c.*"` returns nothing, because the glob `*` never matches a
`/` while the bare category selector imposes no such condition on keys. -/
theorem query_shorthand_counterexample :
    Query exC4DB (gs "c") ≠ Query exC4DB (gs "c.*") := by
  have hleft : Query exC4DB (gs "c") =
      [⟨gs "a/b", .str (gs "v"), [], gs "c"⟩] := by
    unfold Query
    rw [if_pos (by decide)]
    rfl
  have e1 : filepathMatch (gs "c") (gs "c") = some true := by
    rw [filepathMatch_globFree _ _ (by decide)]
    rfl
  have e2 : filepathMatch (gs "*") (gs "a/b") = some false := by
    rw [show gs "*" = ['*'] from rfl, filepathMatch_star]
    rfl
  have e3 : IsDescKey (gs "a/b") = false := by decide
  have hright : Query exC4DB (gs "c.*") = [] := by
    show Query exC4DB (gs "c" ++ '.' :: gs "*") = []
    unfold Query
    rw [if_neg (by decide)]
    rw [splitFirstDot_append _ _ (by decide)]
    simp only [exC4DB, List.flatMap_cons, List.flatMap_nil, e1, e2, e3,
      Bool.not_false, Bool.true_and, List.filter_cons, List.filter_nil]
    simp
  rw [hleft, hright]
  simp

/-- C4, amended.  For a database with distinct category names, a category
name `C` that appears in the database, contains no dot and no glob
metacharacter, and whose fields' keys contain no `/`,
`Query db C = Query db (C ++ ".*")`. -/
theorem query_shorthand_equiv (db : DB) (C : GoStr)
    (hC : GlobFree C) (hCdot : '.' ∉ C)
    (hnames : (db.Categories.map Category.Name).Nodup)
    (hmem : C ∈ db.Categories.map Category.Name)
    (hnoslash : ∀ cat ∈ db.Categories, cat.Name = C →
      ∀ f ∈ cat.Fields, '/' ∉ f.Key) :
    Query db C = Query db (C ++ '.' :: '*' :: []) := by
  obtain ⟨cat0, hcat0⟩ : ∃ cat0,
      db.Categories.find? (fun c => c.Name == C) = some cat0 := by
    have : (db.Categories.find? (fun c => c.Name == C)).isSome := by
      rw [List.find?_isSome]
      obtain ⟨cat, hcatmem, hname⟩ := List.mem_map.mp hmem
      exact ⟨cat, hcatmem, by simp [hname]⟩
    cases h : db.Categories.find? (fun c => c.Name == C) with
    | none => rw [h] at this; exact absurd this (by simp)
    | some cat0 => exact ⟨cat0, rfl⟩
  have hmemcat0 := List.mem_of_find?_eq_some hcat0
  have hname0 : cat0.Name = C := by simpa using List.find?_some hcat0
  have hleft : Query db C = cat0.Fields.filter (fun f => !IsDescKey f.Key) := by
    unfold Query
    rw [if_pos (by
      have : ('.' ∈ C) = False := by simp [hCdot]
      simp [List.elem_iff, hCdot])]
    rw [hcat0]
  have hright : Query db (C ++ '.' :: '*' :: []) =
      cat0.Fields.filter (fun f => !IsDescKey f.Key) := by
    unfold Query
    rw [if_neg (by
      have hdotmem : ((C ++ '.' :: '*' :: []).contains '.') = true := by
        simp [List.elem_iff]
      simp [hdotmem])]
    rw [splitFirstDot_append _ _ hCdot]
    have hbody : (db.Categories.flatMap fun cat =>
        let catMatched := match filepathMatch C cat.Name with
          | none => C == cat.Name
          | some b => b
        if catMatched then
          cat.Fields.filter fun g =>
            !IsDescKey g.Key &&
              (match filepathMatch ('*' :: []) g.Key with
               | none => ('*' :: []) == g.Key
               | some b => b)
          else []) =
        (db.Categories.flatMap fun cat =>
          if (C == cat.Name) = true then
            cat.Fields.filter fun g =>
              !IsDescKey g.Key &&
                (match filepathMatch ('*' :: []) g.Key with
                 | none => ('*' :: []) == g.Key
                 | some b => b)
          else []) := by
      apply List.flatMap_congr
      intro cat _
      rw [filepathMatch_globFree C cat.Name hC]
    show db.Categories.flatMap _ =
      cat0.Fields.filter (fun f => !IsDescKey f.Key)
    rw [hbody, flatMap_name_guard C _ cat0 db.Categories hnames hcat0]
    apply List.filter_congr
    intro g hg
    rw [filepathMatch_star g.Key]
    have : goContains g.Key [Separator] = false := by
      rw [goContains_singleton]
      have h2 := hnoslash cat0 hmemcat0 hname0 g hg
      simp [List.elem_iff, Separator, h2]
    rw [this]
    simp
  rw [hleft, hright]

/-- Concrete database for the C4 witness. -/
def exC4GoodDB : DB :=
  ⟨[⟨gs "academic", [⟨gs "orcid", .str (gs "0000"), [], gs "academic"⟩]⟩,
    ⟨gs "personal", [⟨gs "orcid", .str (gs "1111"), [], gs "personal"⟩]⟩]⟩

theorem query_shorthand_equiv_witness :
    GlobFree (gs "academic") ∧
      Query exC4GoodDB (gs "academic") =
        Query exC4GoodDB (gs "academic" ++ '.' :: '*' :: []) :=
  ⟨by decide,
   query_shorthand_equiv exC4GoodDB (gs "academic") (by decide) (by decide)
     (by decide) (by decide) (by decide)⟩

/-! ### Keyed lookups for merge reasoning -/

lemma nodup_sortStrs_dedup (l : List GoStr) : (sortStrs l.dedup).Nodup :=
  ((List.perm_insertionSort _ l.dedup).nodup_iff).mpr (List.nodup_dedup l)

/-- Finding by name in a keyed `filterMap`: with distinct keys, the first
hit is the entry generated from the key itself. -/
lemma find?_filterMap_keyed {β : Type} (keys : List GoStr)
    (F : GoStr → Option β) (nm : β → GoStr) (key : GoStr)
    (hkey : ∀ a b, F a = some b → nm b = a) (hnd : keys.Nodup) :
    (keys.filterMap F).find? (fun b => nm b == key) =
      if key ∈ keys then F key else none := by
  induction keys with
  | nil => simp
  | cons a t ih =>
    have hnd2 := List.Nodup.of_cons hnd
    rw [List.filterMap_cons]
    cases hFa : F a with
    | none =>
      rw [ih hnd2]
      by_cases hk : key = a
      · subst hk
        have hnotin : key ∉ t := (List.nodup_cons.mp hnd).1
        simp [hnotin, hFa]
      · simp [List.mem_cons, hk]
    | some b =>
      have hb := hkey a b hFa
      rw [List.find?_cons]
      by_cases hk : key = a
      · subst hk
        rw [show (nm b == key) = true from by simp [hb]]
        simp [hFa]
      · rw [show (nm b == key) = false from
          beq_eq_false_iff_ne.mpr (fun e => hk ((hb ▸ e).symm))]
        rw [ih hnd2]
        simp [List.mem_cons, hk]

/-- With distinct names, searching a reversed list finds the same (unique)
entry as searching forwards: the Go index map built with last-write-wins
agrees with first-match search. -/
lemma find?_reverse_nodup {β : Type} (l : List β) (nm : β → GoStr)
    (k : GoStr) (hnd : (l.map nm).Nodup) :
    l.reverse.find? (fun b => nm b == k) = l.find? (fun b => nm b == k) := by
  induction l with
  | nil => rfl
  | cons a t ih =>
    rw [List.reverse_cons, List.find?_append, ih (List.Nodup.of_cons hnd)]
    by_cases hk : nm a = k
    · have hb : (nm a == k) = true := by simp [hk]
      have hrhs : List.find? (fun b => nm b == k) (a :: t) = some a := by
        rw [List.find?_cons, hb]
      have hsingle : List.find? (fun b => nm b == k) [a] = some a := by
        rw [List.find?_cons, hb]
      have hnone : t.find? (fun b => nm b == k) = none := by
        apply List.find?_eq_none.mpr
        intro x hx
        have hall : ∀ x ∈ t, ¬nm a = nm x := by
          simpa using (List.pairwise_cons.mp hnd).1
        simp [beq_eq_false_iff_ne.mpr (fun e => hall x hx (hk.trans e.symm))]
      rw [hrhs, hsingle, hnone]
      rfl
    · have hb : (nm a == k) = false := by simp [hk]
      have hrhs : List.find? (fun b => nm b == k) (a :: t) =
          List.find? (fun b => nm b == k) t := by
        rw [List.find?_cons, hb]
      have hsingle : List.find? (fun b => nm b == k) [a] = none := by
        rw [List.find?_cons, hb]
        rfl
      rw [hrhs, hsingle]
      cases List.find? (fun b => nm b == k) t <;> rfl

lemma find?_reverse_eq_none {β : Type} (l : List β) (p : β → Bool)
    (h : l.find? p = none) : l.reverse.find? p = none :=
  List.find?_eq_none.mpr
    (fun x hx => List.find?_eq_none.mp h x (List.mem_reverse.mp hx))

/-- Field lookup in a merged category: present iff the key occurs in either
input, bound to the last field with that key in global-then-local order. -/
lemma mergeCategory_find (gc lc : Category) (k : GoStr) :
    (mergeCategory gc lc).Fields.find? (fun f => f.Key == k) =
      if k ∈ (gc.Fields ++ lc.Fields).map Field.Key then
        (gc.Fields ++ lc.Fields).reverse.find? (fun f => f.Key == k)
      else none := by
  unfold mergeCategory
  simp only []
  rw [find?_filterMap_keyed _ _ Field.Key k
    (fun a b h => by simpa using List.find?_some h)
    (nodup_sortStrs_dedup _)]
  by_cases hmem : k ∈ (gc.Fields ++ lc.Fields).map Field.Key
  · rw [if_pos (by rw [mem_sortStrs, List.mem_dedup]; exact hmem),
      if_pos hmem]
  · rw [if_neg (by rw [mem_sortStrs, List.mem_dedup]; exact hmem),
      if_neg hmem]

/-- Category lookup in a merged database. -/
lemma merge_find (g l : DB) (c : GoStr) :
    (Merge g l).Categories.find? (fun cat => cat.Name == c) =
      if c ∈ (g.Categories ++ l.Categories).map Category.Name then
        (match g.Categories.reverse.find? (fun x => x.Name == c),
               l.Categories.reverse.find? (fun x => x.Name == c) with
         | some gc, none => some gc
         | none, some lc => some lc
         | some gc, some lc => some (mergeCategory gc lc)
         | none, none => none)
      else none := by
  unfold Merge
  simp only []
  rw [find?_filterMap_keyed _ _ Category.Name c ?hkey (nodup_sortStrs_dedup _)]
  case hkey =>
    intro a b h
    cases hg : g.Categories.reverse.find? (fun x => x.Name == a) with
    | some gc =>
      cases hl : l.Categories.reverse.find? (fun x => x.Name == a) with
      | some lc =>
        rw [hg, hl] at h
        obtain rfl : mergeCategory gc lc = b := by simpa using h
        have := List.find?_some hg
        unfold mergeCategory
        simpa using this
      | none =>
        rw [hg, hl] at h
        obtain rfl : gc = b := by simpa using h
        simpa using List.find?_some hg
    | none =>
      cases hl : l.Categories.reverse.find? (fun x => x.Name == a) with
      | some lc =>
        rw [hg, hl] at h
        obtain rfl : lc = b := by simpa using h
        simpa using List.find?_some hl
      | none =>
        rw [hg, hl] at h
        exact absurd h (by simp)
  by_cases hmem : c ∈ (g.Categories ++ l.Categories).map Category.Name
  · rw [if_pos (by rw [mem_sortStrs, List.mem_dedup]; exact hmem),
      if_pos hmem]
  · rw [if_neg (by rw [mem_sortStrs, List.mem_dedup]; exact hmem),
      if_neg hmem]

lemma dbFind_some_destruct (db : DB) (c k : GoStr) (f : Field)
    (h : dbFind db c k = some f) :
    ∃ cat, db.Categories.find? (fun x => x.Name == c) = some cat ∧
      cat.Fields.find? (fun x => x.Key == k) = some f := by
  unfold dbFind at h
  cases hc : db.Categories.find? (fun x => x.Name == c) with
  | none => rw [hc] at h; exact absurd h (by simp)
  | some cat => rw [hc] at h; exact ⟨cat, rfl, by simpa using h⟩

lemma dbFind_none_destruct (db : DB) (c k : GoStr)
    (h : dbFind db c k = none) :
    db.Categories.find? (fun x => x.Name == c) = none ∨
    ∃ cat, db.Categories.find? (fun x => x.Name == c) = some cat ∧
      cat.Fields.find? (fun x => x.Key == k) = none := by
  unfold dbFind at h
  cases hc : db.Categories.find? (fun x => x.Name == c) with
  | none => exact Or.inl rfl
  | some cat =>
    rw [hc] at h
    exact Or.inr ⟨cat, rfl, by simpa using h⟩

/-- Field-level content of `Merge` when the category exists on both sides:
local-first, then global. -/
lemma merge_dbFind_both (g l : DB) (c k : GoStr) (gcat lcat : Category)
    (hgN : (g.Categories.map Category.Name).Nodup)
    (hlN : (l.Categories.map Category.Name).Nodup)
    (hgK : (gcat.Fields.map Field.Key).Nodup)
    (hlK : (lcat.Fields.map Field.Key).Nodup)
    (hg1 : g.Categories.find? (fun x => x.Name == c) = some gcat)
    (hl1 : l.Categories.find? (fun x => x.Name == c) = some lcat) :
    dbFind (Merge g l) c k =
      (lcat.Fields.find? (fun x => x.Key == k)).or
        (gcat.Fields.find? (fun x => x.Key == k)) := by
  have hmemname : c ∈ (g.Categories ++ l.Categories).map Category.Name := by
    have hmem := List.mem_of_find?_eq_some hg1
    have hname : gcat.Name = c := by simpa using List.find?_some hg1
    rw [List.map_append]
    exact List.mem_append_left _ (hname ▸ List.mem_map_of_mem Category.Name hmem)
  unfold dbFind
  rw [merge_find, if_pos hmemname,
    find?_reverse_nodup g.Categories Category.Name c hgN,
    find?_reverse_nodup l.Categories Category.Name c hlN, hg1, hl1]
  show (mergeCategory gcat lcat).Fields.find? (fun x => x.Key == k) = _
  rw [mergeCategory_find]
  by_cases hmem : k ∈ (gcat.Fields ++ lcat.Fields).map Field.Key
  · rw [if_pos hmem, List.reverse_append, List.find?_append,
      find?_reverse_nodup lcat.Fields Field.Key k hlK,
      find?_reverse_nodup gcat.Fields Field.Key k hgK]
  · rw [if_neg hmem]
    have hgl : gcat.Fields.find? (fun x => x.Key == k) = none := by
      apply List.find?_eq_none.mpr
      intro x hx hbeq
      exact hmem (by
        rw [List.map_append]
        exact List.mem_append_left _
          ((show x.Key = k by simpa using hbeq) ▸
            List.mem_map_of_mem Field.Key hx))
    have hll : lcat.Fields.find? (fun x => x.Key == k) = none := by
      apply List.find?_eq_none.mpr
      intro x hx hbeq
      exact hmem (by
        rw [List.map_append]
        exact List.mem_append_right _
          ((show x.Key = k by simpa using hbeq) ▸
            List.mem_map_of_mem Field.Key hx))
    rw [hgl, hll]
    rfl

/-- Field-level content of `Merge` when the category exists only in the
global database. -/
lemma merge_dbFind_gonly (g l : DB) (c k : GoStr) (gcat : Category)
    (hgN : (g.Categories.map Category.Name).Nodup)
    (hg1 : g.Categories.find? (fun x => x.Name == c) = some gcat)
    (hl1 : l.Categories.find? (fun x => x.Name == c) = none) :
    dbFind (Merge g l) c k = gcat.Fields.find? (fun x => x.Key == k) := by
  have hmemname : c ∈ (g.Categories ++ l.Categories).map Category.Name := by
    have hmem := List.mem_of_find?_eq_some hg1
    have hname : gcat.Name = c := by simpa using List.find?_some hg1
    rw [List.map_append]
    exact List.mem_append_left _ (hname ▸ List.mem_map_of_mem Category.Name hmem)
  unfold dbFind
  rw [merge_find, if_pos hmemname,
    find?_reverse_nodup g.Categories Category.Name c hgN, hg1,
    find?_reverse_eq_none _ _ hl1]
  rfl

/-- Field-level content of `Merge` when the category exists only in the
local database. -/
lemma merge_dbFind_lonly (g l : DB) (c k : GoStr) (lcat : Category)
    (hlN : (l.Categories.map Category.Name).Nodup)
    (hg1 : g.Categories.find? (fun x => x.Name == c) = none)
    (hl1 : l.Categories.find? (fun x => x.Name == c) = some lcat) :
    dbFind (Merge g l) c k = lcat.Fields.find? (fun x => x.Key == k) := by
  have hmemname : c ∈ (g.Categories ++ l.Categories).map Category.Name := by
    have hmem := List.mem_of_find?_eq_some hl1
    have hname : lcat.Name = c := by simpa using List.find?_some hl1
    rw [List.map_append]
    exact List.mem_append_right _ (hname ▸ List.mem_map_of_mem Category.Name hmem)
  unfold dbFind
  rw [merge_find, if_pos hmemname,
    find?_reverse_nodup l.Categories Category.Name c hlN, hl1,
    find?_reverse_eq_none _ _ hg1]
  rfl

/-! ### C1: merge precedence -/

/-- C1.  For databases with unique category names and unique field keys per
category (the data-model invariants): at every `category.key` path present
in both inputs, `Merge g l` holds exactly the local field — value and
description — and every path present in only one input is carried into
`Merge g l` unchanged. -/
theorem merge_precedence (g l : DB)
    (hgN : (g.Categories.map Category.Name).Nodup)
    (hlN : (l.Categories.map Category.Name).Nodup)
    (hgK : ∀ cat ∈ g.Categories, (cat.Fields.map Field.Key).Nodup)
    (hlK : ∀ cat ∈ l.Categories, (cat.Fields.map Field.Key).Nodup)
    (c k : GoStr) :
    (∀ fg fl, dbFind g c k = some fg → dbFind l c k = some fl →
      dbFind (Merge g l) c k = some fl) ∧
    (∀ fg, dbFind g c k = some fg → dbFind l c k = none →
      dbFind (Merge g l) c k = some fg) ∧
    (∀ fl, dbFind g c k = none → dbFind l c k = some fl →
      dbFind (Merge g l) c k = some fl) := by
  refine ⟨?both, ?gonly, ?lonly⟩
  case both =>
    intro fg fl hg hl
    obtain ⟨gcat, hg1, hg2⟩ := dbFind_some_destruct g c k fg hg
    obtain ⟨lcat, hl1, hl2⟩ := dbFind_some_destruct l c k fl hl
    rw [merge_dbFind_both g l c k gcat lcat hgN hlN
      (hgK gcat (List.mem_of_find?_eq_some hg1))
      (hlK lcat (List.mem_of_find?_eq_some hl1)) hg1 hl1, hl2]
    rfl
  case gonly =>
    intro fg hg hl
    obtain ⟨gcat, hg1, hg2⟩ := dbFind_some_destruct g c k fg hg
    rcases dbFind_none_destruct l c k hl with hl1 | ⟨lcat, hl1, hl2⟩
    · rw [merge_dbFind_gonly g l c k gcat hgN hg1 hl1]
      exact hg2
    · rw [merge_dbFind_both g l c k gcat lcat hgN hlN
        (hgK gcat (List.mem_of_find?_eq_some hg1))
        (hlK lcat (List.mem_of_find?_eq_some hl1)) hg1 hl1, hl2, hg2]
      rfl
  case lonly =>
    intro fl hg hl
    obtain ⟨lcat, hl1, hl2⟩ := dbFind_some_destruct l c k fl hl
    rcases dbFind_none_destruct g c k hg with hg1 | ⟨gcat, hg1, hg2⟩
    · rw [merge_dbFind_lonly g l c k lcat hlN hg1 hl1]
      exact hl2
    · rw [merge_dbFind_both g l c k gcat lcat hgN hlN
        (hgK gcat (List.mem_of_find?_eq_some hg1))
        (hlK lcat (List.mem_of_find?_eq_some hl1)) hg1 hl1, hl2]
      rfl

/-- Concrete global database for the C1 witness: spec concrete scenario 2. -/
def exMergeG : DB :=
  ⟨[⟨gs "identity",
     [⟨gs "name", .str (gs "Alice"), [], gs "identity"⟩,
      ⟨gs "pronouns", .str (gs "she/her"), [], gs "identity"⟩]⟩]⟩

/-- Concrete local database for the C1 witness. -/
def exMergeL : DB :=
  ⟨[⟨gs "identity", [⟨gs "name", .str (gs "Bob"), [], gs "identity"⟩]⟩]⟩

theorem merge_precedence_witness :
    (exMergeG.Categories.map Category.Name).Nodup ∧
      dbFind (Merge exMergeG exMergeL) (gs "identity") (gs "name") =
        some ⟨gs "name", .str (gs "Bob"), [], gs "identity"⟩ ∧
      dbFind (Merge exMergeG exMergeL) (gs "identity") (gs "pronouns") =
        some ⟨gs "pronouns", .str (gs "she/her"), [], gs "identity"⟩ :=
  ⟨by decide,
   (merge_precedence exMergeG exMergeL (by decide) (by decide)
       (by decide) (by decide) (gs "identity") (gs "name")).1
     ⟨gs "name", .str (gs "Alice"), [], gs "identity"⟩
     ⟨gs "name", .str (gs "Bob"), [], gs "identity"⟩ rfl rfl,
   (merge_precedence exMergeG exMergeL (by decide) (by decide)
       (by decide) (by decide) (gs "identity") (gs "pronouns")).2.1
     ⟨gs "pronouns", .str (gs "she/her"), [], gs "identity"⟩ rfl rfl⟩

/-! ### C2: sort invariant -/

/-- A category's field keys are in strictly increasing lexicographic order. -/
abbrev CatKeysSorted (cat : Category) : Prop :=
  (cat.Fields.map Field.Key).Pairwise (· < ·)

/-- A database's category names are strictly increasing, and every
category's keys are strictly increasing. -/
abbrev DBSorted (db : DB) : Prop :=
  (db.Categories.map Category.Name).Pairwise (· < ·) ∧
  ∀ cat ∈ db.Categories, CatKeysSorted cat

lemma pairwise_lt_sortStrs_dedup (l : List GoStr) :
    (sortStrs l.dedup).Pairwise (· < ·) := by
  have hs : (sortStrs l.dedup).Pairwise (· ≤ ·) :=
    List.sorted_insertionSort _ _
  have hn : (sortStrs l.dedup).Nodup := nodup_sortStrs_dedup l
  exact (hs.and hn).imp (fun h => lt_of_le_of_ne h.1 h.2)

lemma map_filterMap_keyed_sublist {β : Type} (keys : List GoStr)
    (F : GoStr → Option β) (nm : β → GoStr)
    (hkey : ∀ a b, F a = some b → nm b = a) :
    ((keys.filterMap F).map nm).Sublist keys := by
  induction keys with
  | nil => simp
  | cons a t ih =>
    rw [List.filterMap_cons]
    cases hFa : F a with
    | none => exact ih.cons a
    | some b =>
      rw [List.map_cons, hkey a b hFa]
      exact ih.cons₂ a

/-- The name attached by the loader's per-category builder is the category
key it was built from. -/
lemma loadDB_builder_name (raw : RawDoc) (catName : GoStr) (cat : Category)
    (h : (match lookupRaw raw catName with
      | some (Value.table catMap) =>
        let keys :=
          sortStrs (((catMap.map Prod.fst).filter (fun k => !IsDescKey k)).dedup)
        let fields := keys.filterMap fun key =>
          (lookupRaw catMap key).map fun v =>
            let desc0 :=
              match lookupRaw catMap (key ++ gs "_desc") with
              | some (Value.str s) => s
              | _ => []
            let desc :=
              if desc0 = [] then
                match defaultDescFor catName key with
                | some d => d
                | none => []
              else desc0
            Field.mk key v desc catName
        if fields.isEmpty then none else some (Category.mk catName fields)
      | _ => none) = some cat) :
    cat.Name = catName ∧
      ∃ catMap, lookupRaw raw catName = some (Value.table catMap) ∧
        cat.Fields = (sortStrs (((catMap.map Prod.fst).filter
            (fun k => !IsDescKey k)).dedup)).filterMap fun key =>
          (lookupRaw catMap key).map fun v =>
            let desc0 :=
              match lookupRaw catMap (key ++ gs "_desc") with
              | some (Value.str s) => s
              | _ => []
            let desc :=
              if desc0 = [] then
                match defaultDescFor catName key with
                | some d => d
                | none => []
              else desc0
            Field.mk key v desc catName := by
  split at h
  · next catMap heq =>
    dsimp only [] at h
    split at h
    · exact absurd h (by simp)
    · obtain rfl : Category.mk catName _ = cat := by injection h with h1
      exact ⟨rfl, catMap, heq, rfl⟩
  · exact absurd h (by simp)

/-- C2.  Sort invariant: every database produced by `LoadFile` is sorted
(strictly increasing category names; strictly increasing keys per
category), and `Merge` of two databases whose categories each have strictly
increasing keys is sorted as well (the merge re-sorts category names and
merged keys; categories copied through from one input keep that input's key
order, whence the hypothesis — it holds for all loaded databases by the
first part). -/
theorem sort_invariant :
    (∀ raw : RawDoc, DBSorted (loadDB raw)) ∧
    (∀ g l : DB, (∀ cat ∈ g.Categories, CatKeysSorted cat) →
      (∀ cat ∈ l.Categories, CatKeysSorted cat) →
      DBSorted (Merge g l)) := by
  constructor
  · intro raw
    constructor
    · apply List.Pairwise.sublist
        (map_filterMap_keyed_sublist _ _ Category.Name ?hkey)
        (pairwise_lt_sortStrs_dedup _)
      case hkey =>
        intro a b h
        exact (loadDB_builder_name raw a b h).1
    · intro cat hcat
      unfold loadDB at hcat
      simp only [List.mem_filterMap] at hcat
      obtain ⟨catName, _, hF⟩ := hcat
      obtain ⟨-, catMap, -, hfields⟩ := loadDB_builder_name raw catName cat hF
      unfold CatKeysSorted
      rw [hfields]
      apply List.Pairwise.sublist
        (map_filterMap_keyed_sublist _ _ Field.Key ?fkey)
        (pairwise_lt_sortStrs_dedup _)
      case fkey =>
        intro a b h
        cases hl : lookupRaw catMap a with
        | none => rw [hl] at h; exact absurd h (by simp)
        | some v =>
          rw [hl] at h
          obtain rfl : Field.mk a v _ _ = b := by simpa using h
          rfl
  · intro g l hg hl
    have hFname : ∀ a b,
        (match g.Categories.reverse.find? (fun x => x.Name == a),
               l.Categories.reverse.find? (fun x => x.Name == a) with
         | some gc, none => some gc
         | none, some lc => some lc
         | some gc, some lc => some (mergeCategory gc lc)
         | none, none => none) = some b → b.Name = a := by
      intro a b h
      cases hgf : g.Categories.reverse.find? (fun x => x.Name == a) with
      | some gc =>
        cases hlf : l.Categories.reverse.find? (fun x => x.Name == a) with
        | some lc =>
          rw [hgf, hlf] at h
          obtain rfl : mergeCategory gc lc = b := by simpa using h
          unfold mergeCategory
          simpa using List.find?_some hgf
        | none =>
          rw [hgf, hlf] at h
          obtain rfl : gc = b := by simpa using h
          simpa using List.find?_some hgf
      | none =>
        cases hlf : l.Categories.reverse.find? (fun x => x.Name == a) with
        | some lc =>
          rw [hgf, hlf] at h
          obtain rfl : lc = b := by simpa using h
          simpa using List.find?_some hlf
        | none =>
          rw [hgf, hlf] at h
          exact absurd h (by simp)
    constructor
    · exact List.Pairwise.sublist
        (map_filterMap_keyed_sublist _ _ Category.Name hFname)
        (pairwise_lt_sortStrs_dedup _)
    · intro cat hcat
      unfold Merge at hcat
      simp only [List.mem_filterMap] at hcat
      obtain ⟨n, -, hF⟩ := hcat
      cases hgf : g.Categories.reverse.find? (fun x => x.Name == n) with
      | some gc =>
        cases hlf : l.Categories.reverse.find? (fun x => x.Name == n) with
        | some lc =>
          rw [hgf, hlf] at hF
          obtain rfl : mergeCategory gc lc = cat := by simpa using hF
          unfold CatKeysSorted mergeCategory
          apply List.Pairwise.sublist
            (map_filterMap_keyed_sublist _ _ Field.Key ?mkey)
            (pairwise_lt_sortStrs_dedup _)
          case mkey =>
            intro a b h
            simpa using List.find?_some h
        | none =>
          rw [hgf, hlf] at hF
          obtain rfl : gc = cat := by simpa using hF
          exact hg _ (List.mem_reverse.mp (List.mem_of_find?_eq_some hgf))
      | none =>
        cases hlf : l.Categories.reverse.find? (fun x => x.Name == n) with
        | some lc =>
          rw [hgf, hlf] at hF
          obtain rfl : lc = cat := by simpa using hF
          exact hl _ (List.mem_reverse.mp (List.mem_of_find?_eq_some hlf))
        | none =>
          rw [hgf, hlf] at hF
          exact absurd hF (by simp)

theorem sort_invariant_witness :
    DBSorted (loadDB exRaw) ∧
      (∀ cat ∈ exMergeG.Categories, CatKeysSorted cat) ∧
      DBSorted (Merge exMergeG exMergeL) :=
  ⟨sort_invariant.1 exRaw, by decide,
   sort_invariant.2 exMergeG exMergeL (by decide) (by decide)⟩

/-! ### C9: companion keys that are not nonempty strings -/

lemma lookupRaw_mem_keys {α : Type} {l : List (GoStr × α)} {k : GoStr} {v : α}
    (h : lookupRaw l k = some v) : k ∈ l.map Prod.fst := by
  unfold lookupRaw at h
  cases hf : l.find? (fun p => p.1 == k) with
  | none => rw [hf] at h; exact absurd h (by simp)
  | some p =>
    have hmem := List.mem_of_find?_eq_some hf
    have : p.1 = k := by simpa using List.find?_some hf
    exact this ▸ List.mem_map_of_mem Prod.fst hmem

/-- Looking a non-description key up in a loaded database: the stored field
carries the raw value and the description computed from the companion key
with default fallback. -/
lemma loadDB_find (raw : RawDoc) (c k : GoStr)
    (catMap : List (GoStr × Value)) (v : Value)
    (hcat : lookupRaw raw c = some (Value.table catMap))
    (hk : lookupRaw catMap k = some v)
    (hkd : IsDescKey k = false) :
    dbFind (loadDB raw) c k = some
      (Field.mk k v
        (let desc0 :=
          match lookupRaw catMap (k ++ gs "_desc") with
          | some (Value.str s) => s
          | _ => []
         if desc0 = [] then
           match defaultDescFor c k with
           | some d => d
           | none => []
         else desc0) c) := by
  have hcmem : c ∈ (raw.map Prod.fst) := lookupRaw_mem_keys hcat
  have hkmem : k ∈ sortStrs (((catMap.map Prod.fst).filter
      (fun key => !IsDescKey key)).dedup) := by
    rw [mem_sortStrs, List.mem_dedup, List.mem_filter]
    exact ⟨lookupRaw_mem_keys hk, by simp [hkd]⟩
  unfold dbFind loadDB
  rw [find?_filterMap_keyed _ _ Category.Name c
    (fun a b h => (loadDB_builder_name raw a b h).1)
    (nodup_sortStrs_dedup _)]
  rw [if_pos (by rw [mem_sortStrs, List.mem_dedup]; exact hcmem)]
  rw [hcat]
  dsimp only []
  have hmemF : (Field.mk k v
      (let desc0 :=
        match lookupRaw catMap (k ++ gs "_desc") with
        | some (Value.str s) => s
        | _ => []
       if desc0 = [] then
         match defaultDescFor c k with
         | some d => d
         | none => []
       else desc0) c) ∈
      (sortStrs (((catMap.map Prod.fst).filter
        (fun key => !IsDescKey key)).dedup)).filterMap fun key =>
          (lookupRaw catMap key).map fun v =>
            let desc0 :=
              match lookupRaw catMap (key ++ gs "_desc") with
              | some (Value.str s) => s
              | _ => []
            let desc :=
              if desc0 = [] then
                match defaultDescFor c key with
                | some d => d
                | none => []
              else desc0
            Field.mk key v desc c := by
    apply List.mem_filterMap.mpr
    exact ⟨k, hkmem, by rw [hk]; rfl⟩
  rw [if_neg (by
    intro hemp
    rw [List.isEmpty_iff] at hemp
    rw [hemp] at hmemF
    exact absurd hmemF (List.not_mem_nil _))]
  show List.find? _ _ = _
  rw [find?_filterMap_keyed _ _ Field.Key k ?gkey (nodup_sortStrs_dedup _)]
  case gkey =>
    intro a b h
    cases hl : lookupRaw catMap a with
    | none => rw [hl] at h; exact absurd h (by simp)
    | some w =>
      rw [hl] at h
      obtain rfl : Field.mk a w _ _ = b := by simpa using h
      rfl
  rw [if_pos hkmem, hk]
  rfl

/-- C9.  If a companion key `K_desc` exists in the raw document but its
value is not a string, or is the empty string, `LoadFile` still applies the
built-in default description for `(category, K)`: an explicit companion key
does not suppress the default-description fallback. -/
theorem loadFile_companion_fallback (raw : RawDoc) (c k : GoStr)
    (catMap : List (GoStr × Value)) (v d : Value) (dd : GoStr)
    (hcat : lookupRaw raw c = some (Value.table catMap))
    (hk : lookupRaw catMap k = some v)
    (hkd : IsDescKey k = false)
    (hcomp : lookupRaw catMap (k ++ gs "_desc") = some d)
    (hbad : ∀ s, d = Value.str s → s = [])
    (hdef : defaultDescFor c k = some dd) :
    dbFind (loadDB raw) c k = some (Field.mk k v dd c) := by
  rw [loadDB_find raw c k catMap v hcat hk hkd]
  congr 2
  rw [hcomp]
  cases d with
  | str s =>
    have := hbad s rfl
    subst this
    rw [hdef]
    rfl
  | arr xs => rw [hdef]; rfl
  | strArr xs => rw [hdef]; rfl
  | intV n => rw [hdef]; rfl
  | floatV t => rw [hdef]; rfl
  | boolV b => rw [hdef]; rfl
  | table kvs => rw [hdef]; rfl
  | other t => rw [hdef]; rfl

/-- Concrete raw document for the C9 witness: the companion `name_desc`
carries an integer, not a string. -/
def exC9Raw : RawDoc :=
  [(gs "identity",
    .table [(gs "name", .str (gs "Alexander")),
            (gs "name_desc", .intV 7)])]

theorem loadFile_companion_fallback_witness :
    lookupRaw [(gs "name", Value.str (gs "Alexander")),
               (gs "name_desc", Value.intV 7)] (gs "name" ++ gs "_desc") =
        some (Value.intV 7) ∧
      defaultDescFor (gs "identity") (gs "name") =
        some (gs "Full legal name") ∧
      dbFind (loadDB exC9Raw) (gs "identity") (gs "name") =
        some (Field.mk (gs "name") (.str (gs "Alexander"))
          (gs "Full legal name") (gs "identity")) :=
  ⟨rfl, rfl,
   loadFile_companion_fallback exC9Raw (gs "identity") (gs "name")
     [(gs "name", .str (gs "Alexander")), (gs "name_desc", .intV 7)]
     (.str (gs "Alexander")) (.intV 7) (gs "Full legal name")
     rfl rfl (by decide) rfl (fun s h => by cases h) rfl⟩

/-! ### `internal/model/format.go`: the TOML formatter -/

/-- One hexadecimal digit (lower case), as Go's escape printing uses. -/
def hexDigit (n : Nat) : Char :=
  if n < 10 then Char.ofNat (48 + n) else Char.ofNat (87 + n)

/-- Go `strconv.Quote` escaping of a single character: `\"`, `\\`, the
named control escapes, printable ASCII verbatim, `\x`/`\u`/`\U` hex escapes
otherwise.  (Printability of non-ASCII runes is abstracted: Go prints
printable non-ASCII runes verbatim; the properties proved here only involve
ASCII data.) -/
def quoteChar (c : Char) : GoStr :=
  if c = '"' then ['\\', '"']
  else if c = '\\' then ['\\', '\\']
  else if c = Char.ofNat 7 then ['\\', 'a']
  else if c = Char.ofNat 8 then ['\\', 'b']
  else if c = Char.ofNat 12 then ['\\', 'f']
  else if c = '\n' then ['\\', 'n']
  else if c = '\r' then ['\\', 'r']
  else if c = '\t' then ['\\', 't']
  else if c = Char.ofNat 11 then ['\\', 'v']
  else if 0x20 ≤ c.toNat ∧ c.toNat ≤ 0x7e then [c]
  else if c.toNat < 0x80 then
    '\\' :: 'x' :: [hexDigit (c.toNat / 16 % 16), hexDigit (c.toNat % 16)]
  else if c.toNat < 0x10000 then
    '\\' :: 'u' :: [hexDigit (c.toNat / 4096 % 16), hexDigit (c.toNat / 256 % 16),
      hexDigit (c.toNat / 16 % 16), hexDigit (c.toNat % 16)]
  else
    '\\' :: 'U' :: [hexDigit (c.toNat / 268435456 % 16),
      hexDigit (c.toNat / 16777216 % 16), hexDigit (c.toNat / 1048576 % 16),
      hexDigit (c.toNat / 65536 % 16), hexDigit (c.toNat / 4096 % 16),
      hexDigit (c.toNat / 256 % 16), hexDigit (c.toNat / 16 % 16),
      hexDigit (c.toNat % 16)]

/-- Go `fmt.Sprintf("%q", s)` / `strconv.Quote`. -/
def goQuote (s : GoStr) : GoStr := '"' :: s.flatMap quoteChar ++ ['"']

mutual

/-- `model.tomlValue`: a Go value as a TOML value literal.  Strings are
`%q`-quoted, `[]interface{}` elements recurse, `[]string` elements are
`%q`-quoted, numbers and booleans print bare, anything else is `%q` of its
`%v` form. -/
def tomlValue : Value → GoStr
  | .str s => goQuote s
  | .arr xs => '[' :: joinSep (gs ", ") (tomlValueList xs) ++ [']']
  | .strArr xs => '[' :: joinSep (gs ", ") (xs.map goQuote) ++ [']']
  | .intV n => intRepr n
  | .floatV tok => tok
  | .boolV b => if b then gs "true" else gs "false"
  | .table kvs => goQuote (sprintV (.table kvs))
  | .other tok => goQuote (sprintV (.other tok))

/-- The TOML literal of each array element. -/
def tomlValueList : List Value → List GoStr
  | [] => []
  | v :: vs => tomlValue v :: tomlValueList vs

end

/-- One category block of `model.FormatTOML`: a `[name]` header line and one
`key = value` line per non-`_desc` field. -/
def renderCat (cat : Category) : GoStr :=
  '[' :: cat.Name ++ ']' :: '\n' ::
    (cat.Fields.flatMap fun f =>
      if IsDescKey f.Key then []
      else f.Key ++ ' ' :: '=' :: ' ' :: tomlValue f.Value ++ ['\n'])

/-- `model.FormatTOML`: the whole database as a TOML document, one block per
category with a blank line between blocks (and none before the first). -/
def FormatTOML (db : DB) : GoStr :=
  joinSep ['\n'] (db.Categories.map renderCat)

/-! ### A TOML-subset reader for the emitted documents

Modelled from the spec: the loader's syntactic front end is the third-party
`BurntSushi/toml` parser, which is not part of this repository; the
functions below model, after the TOML specification, the fragment of TOML
that `FormatTOML` emits — `[name]` table headers with bare-key names,
`key = value` lines with bare keys, basic strings with backslash escapes,
flat arrays, integers, floats, and booleans, with duplicate keys and
duplicate table headers rejected.  Integer-shaped numeric literals parse as
`int64` and decimal/exponent-shaped ones as `float64`, as TOML requires. -/

/-- Split a text into its `\n`-separated lines. -/
def splitLines : GoStr → List GoStr
  | [] => [[]]
  | '\n' :: rest => [] :: splitLines rest
  | c :: rest =>
    match splitLines rest with
    | [] => [[c]]
    | a :: b => (c :: a) :: b

/-- A TOML bare-key character. -/
def isBareChar (c : Char) : Bool := c.isAlphanum || c = '_' || c = '-'

/-- Characters a scalar token (number or boolean) may consist of. -/
def isTokChar (c : Char) : Bool :=
  c.isAlphanum || c = '-' || c = '+' || c = '.'

/-- A basic-string escape. -/
def unescape : Char → Option Char
  | 'n' => some '\n'
  | 't' => some '\t'
  | 'r' => some '\r'
  | '"' => some '"'
  | '\\' => some '\\'
  | 'b' => some (Char.ofNat 8)
  | 'f' => some (Char.ofNat 12)
  | _ => none

/-- Read a TOML basic string (after the opening quote) up to its closing
quote; returns the decoded content and the rest of the input. -/
def parseBasicString : GoStr → Option (GoStr × GoStr)
  | [] => none
  | '"' :: rest => some ([], rest)
  | '\\' :: rest =>
    match rest with
    | [] => none
    | e :: rest2 =>
      match unescape e with
      | none => none
      | some c => (parseBasicString rest2).map (fun p => (c :: p.1, p.2))
  | c :: rest =>
    if 0x20 ≤ c.toNat ∧ c.toNat ≤ 0x7e then
      (parseBasicString rest).map (fun p => (c :: p.1, p.2))
    else none

/-- The numeric value of a list of decimal digits. -/
def parseNat : GoStr → Option Nat
  | [] => none
  | s => go s 0
where
  go : GoStr → Nat → Option Nat
    | [], acc => some acc
    | c :: rest, acc =>
      if c.isDigit then go rest (acc * 10 + (c.toNat - 48)) else none

/-- An integer literal: optional minus sign, then digits. -/
def parseIntTok : GoStr → Option Int
  | '-' :: t => (parseNat t).map (fun n => -(n : Int))
  | t => (parseNat t).map Int.ofNat

/-- Read one scalar TOML value (string, boolean, integer, or float) from the
front of the input. -/
def parseScalar (s : GoStr) : Option (Value × GoStr) :=
  match s with
  | '"' :: body => (parseBasicString body).map (fun p => (Value.str p.1, p.2))
  | _ =>
    let tok := s.takeWhile isTokChar
    let rest := s.drop tok.length
    if tok = [] then none
    else if tok = gs "true" then some (Value.boolV true, rest)
    else if tok = gs "false" then some (Value.boolV false, rest)
    else if '.' ∈ tok ∨ 'e' ∈ tok ∨ 'E' ∈ tok then
      some (Value.floatV tok, rest)
    else
      (parseIntTok tok).map (fun n => (Value.intV n, rest))

lemma parseBasicString_length_aux :
    ∀ (n : Nat) (s c rest : GoStr), s.length ≤ n →
      parseBasicString s = some (c, rest) → rest.length < s.length := by
  intro n
  induction n with
  | zero =>
    intro s c rest hle h
    cases s with
    | nil => exact absurd h (by simp [parseBasicString])
    | cons a t => simp at hle
  | succ n ih =>
    intro s c rest hle h
    rw [parseBasicString.eq_def] at h
    split at h
    · exact absurd h (by simp)
    · next t0 =>
      obtain ⟨rfl, rfl⟩ : ([] : GoStr) = c ∧ t0 = rest := by simpa using h
      simp
    · next t0 =>
      split at h
      · exact absurd h (by simp)
      · next e rest2 =>
        split at h
        · exact absurd h (by simp)
        · next ch hun =>
          cases hp : parseBasicString rest2 with
          | none => rw [hp] at h; exact absurd h (by simp)
          | some p =>
            rw [hp] at h
            obtain ⟨rfl, rfl⟩ : ch :: p.1 = c ∧ p.2 = rest := by simpa using h
            have hlt := ih rest2 p.1 p.2 (by simp at hle; omega) hp
            simp
            omega
    · next ch t0 hq hb =>
      split at h
      · cases hp : parseBasicString t0 with
        | none => rw [hp] at h; exact absurd h (by simp)
        | some p =>
          rw [hp] at h
          obtain ⟨rfl, rfl⟩ : ch :: p.1 = c ∧ p.2 = rest := by simpa using h
          have hlt := ih t0 p.1 p.2 (by simp at hle; omega) hp
          simp
          omega
      · exact absurd h (by simp)

lemma parseBasicString_length (s : GoStr) (c : GoStr) (rest : GoStr)
    (h : parseBasicString s = some (c, rest)) : rest.length < s.length :=
  parseBasicString_length_aux s.length s c rest le_rfl h

lemma parseScalar_length (s : GoStr) (v : Value) (rest : GoStr)
    (h : parseScalar s = some (v, rest)) : rest.length < s.length := by
  rw [parseScalar.eq_def] at h
  split at h
  · next body =>
    cases hp : parseBasicString body with
    | none => rw [hp] at h; exact absurd h (by simp)
    | some p =>
      rw [hp] at h
      obtain ⟨-, rfl⟩ : Value.str p.1 = v ∧ p.2 = rest := by simpa using h
      have := parseBasicString_length body p.1 p.2 hp
      simp
      omega
  · dsimp only [] at h
    split at h
    · exact absurd h (by simp)
    · next hne =>
      have htok : (s.takeWhile isTokChar).length ≥ 1 := by
        cases htw : s.takeWhile isTokChar with
        | nil => exact absurd htw hne
        | cons a t => simp
      have hdrop : (s.drop (s.takeWhile isTokChar).length).length =
          s.length - (s.takeWhile isTokChar).length := by
        simp
      have hle2 : (s.takeWhile isTokChar).length ≤ s.length := by
        have := (List.takeWhile_sublist (l := s) isTokChar).length_le
        exact this
      split at h
      · obtain ⟨-, rfl⟩ : _ ∧ s.drop (s.takeWhile isTokChar).length = rest := by
          simpa using h
        omega
      · split at h
        · obtain ⟨-, rfl⟩ : _ ∧ s.drop (s.takeWhile isTokChar).length = rest := by
            simpa using h
          omega
        · split at h
          · obtain ⟨-, rfl⟩ : _ ∧ s.drop (s.takeWhile isTokChar).length = rest := by
              simpa using h
            omega
          · cases hi : parseIntTok (s.takeWhile isTokChar) with
            | none => rw [hi] at h; exact absurd h (by simp)
            | some n =>
              rw [hi] at h
              obtain ⟨-, rfl⟩ : _ ∧ s.drop (s.takeWhile isTokChar).length = rest := by
                simpa using h
              omega

/-- Read the comma-separated scalar elements of a flat TOML array, up to its
closing bracket. -/
def parseArrayElems (s : GoStr) : Option (List Value × GoStr) :=
  match hp : parseScalar s with
  | none => none
  | some (v, rest) =>
    match rest with
    | ']' :: r2 => some ([v], r2)
    | ',' :: ' ' :: r2 =>
      (parseArrayElems r2).map (fun p => (v :: p.1, p.2))
    | _ => none
  termination_by s.length
  decreasing_by
    have h1 := parseScalar_length s v (',' :: ' ' :: r2) hp
    simp at h1
    omega

/-- Read one full TOML value occupying the whole input. -/
def parseValue (s : GoStr) : Option Value :=
  match s with
  | '[' :: rest =>
    match rest with
    | ']' :: r2 => if r2 = [] then some (Value.arr []) else none
    | _ =>
      (parseArrayElems rest).bind fun p =>
        if p.2 = [] then some (Value.arr p.1) else none
  | _ =>
    (parseScalar s).bind fun p =>
      if p.2 = [] then some p.1 else none

/-- Read a `[name]` table-header line. -/
def parseHeader (line : GoStr) : Option GoStr :=
  match line with
  | '[' :: rest =>
    let name := rest.dropLast
    if rest.getLast? = some ']' ∧ name ≠ [] ∧ name.all isBareChar then
      some name
    else none
  | _ => none

/-- Read a `key = value` line with a bare key. -/
def parseKVLine (line : GoStr) : Option (GoStr × Value) :=
  let key := line.takeWhile isBareChar
  let rest := line.drop key.length
  if key = [] then none
  else
    match rest with
    | ' ' :: '=' :: ' ' :: vtxt => (parseValue vtxt).map (fun v => (key, v))
    | _ => none

/-- The state of the line reader: finished categories in order, and the
currently open category (name and key/value pairs in order), if any. -/
abbrev DocState := List (GoStr × List (GoStr × Value)) × Option (GoStr × List (GoStr × Value))

/-- Close the currently open category, if any. -/
def flushCat (st : DocState) : List (GoStr × List (GoStr × Value)) :=
  match st.2 with
  | none => st.1
  | some cur => st.1 ++ [cur]

/-- Process one line: blank lines are skipped, a header opens a new category
(rejecting duplicate names), and a key/value line extends the open category
(rejecting duplicate keys and key/value lines before any header). -/
def stepLine (st : Option DocState) (line : GoStr) : Option DocState :=
  match st with
  | none => none
  | some st =>
    if line = [] then some st
    else
      match parseHeader line with
      | some name =>
        let acc := flushCat st
        if (acc.map Prod.fst).contains name then none
        else some (acc, some (name, []))
      | none =>
        match parseKVLine line with
        | none => none
        | some kv =>
          match st.2 with
          | none => none
          | some (cname, kvs) =>
            if (kvs.map Prod.fst).contains kv.1 then none
            else some (st.1, some (cname, kvs ++ [kv]))

/-- Read a whole rendered document into a raw top-level table. -/
def parseTOMLDoc (text : GoStr) : Option RawDoc :=
  ((splitLines text).foldl stepLine (some ([], none))).map fun st =>
    (flushCat st).map fun p => (p.1, Value.table p.2)

/-! ### C7: TOML format round trip -/

/-- Concrete raw document for the C7 counterexample: a float-valued field
whose `fmt.Sprint` form is the integer literal `3` (the value of the TOML
input `k = 3.0`). -/
def exC7Raw : RawDoc := [(gs "c", .table [(gs "k", .floatV (gs "3"))])]

/-- The database `LoadFile` produces from `exC7Raw`. -/
def exC7DB : DB := ⟨[⟨gs "c", [⟨gs "k", .floatV (gs "3"), [], gs "c"⟩]⟩]⟩

/-- C7, counterexample.  The claim fails as stated: `exC7DB` is producible
by Load (it is `loadDB exC7Raw`, the parse of `k = 3.0`), but `FormatTOML`
renders its float value as the integer literal `3`, which TOML re-parses as
an `int64`, not the original `float64`. -/
theorem formatTOML_roundtrip_counterexample :
    loadDB exC7Raw = exC7DB ∧
    parseTOMLDoc (FormatTOML exC7DB) =
      some [(gs "c", Value.table [(gs "k", Value.intV 3)])] ∧
    dbFind (loadDB [(gs "c", Value.table [(gs "k", Value.intV 3)])])
        (gs "c") (gs "k") = some ⟨gs "k", Value.intV 3, [], gs "c"⟩ ∧
    dbFind exC7DB (gs "c") (gs "k") =
      some ⟨gs "k", Value.floatV (gs "3"), [], gs "c"⟩ ∧
    Value.intV 3 ≠ Value.floatV (gs "3") := by
  refine ⟨rfl, rfl, rfl, rfl, ?_⟩
  intro h
  cases h

/-- Printable-ASCII characters: the strings whose Go `%q` quoting uses only
escapes that TOML basic strings also accept. -/
abbrev PrintableASCII (s : GoStr) : Prop :=
  ∀ c ∈ s, 0x20 ≤ c.toNat ∧ c.toNat ≤ 0x7e

/-- A nonempty string of TOML bare-key characters. -/
abbrev BareKey (p : GoStr) : Prop :=
  p ≠ [] ∧ ∀ c ∈ p, isBareChar c = true

/-- A scalar value whose TOML rendering re-parses to itself: a
printable-ASCII string, any integer or boolean, or a float whose canonical
decimal token contains a `.` or exponent (so that TOML classifies it as a
float, not an integer). -/
inductive SafeScalar : Value → Prop
  | str (s : GoStr) (h : PrintableASCII s) : SafeScalar (.str s)
  | intV (n : Int) : SafeScalar (.intV n)
  | boolV (b : Bool) : SafeScalar (.boolV b)
  | floatV (tok : GoStr) (hne : tok ≠ [])
      (hchars : ∀ c ∈ tok,
        c.isDigit ∨ c = '-' ∨ c = '+' ∨ c = '.' ∨ c = 'e' ∨ c = 'E')
      (hshape : '.' ∈ tok ∨ 'e' ∈ tok ∨ 'E' ∈ tok) : SafeScalar (.floatV tok)

/-- A value whose TOML rendering re-parses to itself: a safe scalar or a
flat array of safe scalars (the data model's "ordered list of scalars"). -/
inductive SafeValue : Value → Prop
  | scalar (v : Value) (h : SafeScalar v) : SafeValue v
  | arr (xs : List Value) (h : ∀ v ∈ xs, SafeScalar v) : SafeValue (.arr xs)

lemma quoteChar_eq_self (c : Char) (h1 : 0x20 ≤ c.toNat) (h2 : c.toNat ≤ 0x7e)
    (hq : c ≠ '"') (hb : c ≠ '\\') : quoteChar c = [c] := by
  have hne : ∀ d : Char, d.toNat < 0x20 → c ≠ d := by
    intro d hd he
    subst he
    omega
  unfold quoteChar
  rw [if_neg hq, if_neg hb, if_neg (hne _ (by decide)),
    if_neg (hne _ (by decide)), if_neg (hne _ (by decide)),
    if_neg (hne _ (by decide)), if_neg (hne _ (by decide)),
    if_neg (hne _ (by decide)), if_neg (hne _ (by decide)),
    if_pos ⟨h1, h2⟩]

lemma parseBasicString_default (c : Char) (rest : GoStr) (hq : c ≠ '"')
    (hb : c ≠ '\\') :
    parseBasicString (c :: rest) =
      if 0x20 ≤ c.toNat ∧ c.toNat ≤ 0x7e then
        (parseBasicString rest).map (fun p => (c :: p.1, p.2))
      else none := by
  rw [parseBasicString.eq_def]
  split <;> simp_all

lemma parseBasicString_escape (e : Char) (c2 : Char) (r : GoStr)
    (h : unescape e = some c2) :
    parseBasicString ('\\' :: e :: r) =
      (parseBasicString r).map (fun p => (c2 :: p.1, p.2)) := by
  rw [parseBasicString.eq_def]
  simp [h]

/-- Decoding Go's `%q` output recovers the original printable-ASCII string,
leaving the input after the closing quote untouched. -/
lemma parseBasicString_quote (s : GoStr) (h : PrintableASCII s)
    (rest : GoStr) :
    parseBasicString (s.flatMap quoteChar ++ '"' :: rest) = some (s, rest) := by
  induction s with
  | nil => rfl
  | cons c t ih =>
    have hc := h c (List.mem_cons_self c t)
    have ht : PrintableASCII t := fun x hx => h x (List.mem_cons_of_mem c hx)
    rw [List.flatMap_cons]
    by_cases hq : c = '"'
    · subst hq
      show parseBasicString
        ('\\' :: '"' :: (t.flatMap quoteChar ++ '"' :: rest)) = _
      rw [parseBasicString_escape '"' '"' _ rfl, ih ht]
      rfl
    · by_cases hb : c = '\\'
      · subst hb
        show parseBasicString
          ('\\' :: '\\' :: (t.flatMap quoteChar ++ '"' :: rest)) = _
        rw [parseBasicString_escape '\\' '\\' _ rfl, ih ht]
        rfl
      · rw [quoteChar_eq_self c hc.1 hc.2 hq hb]
        show parseBasicString
          (c :: (t.flatMap quoteChar ++ '"' :: rest)) = _
        rw [parseBasicString_default c _ hq hb, if_pos hc, ih ht]
        rfl

lemma natDigits_ne_nil (n : Nat) : natDigits n ≠ [] := by
  rw [natDigits]
  split <;> simp

lemma digitChar_facts (n : Nat) (h : n < 10) :
    (Char.ofNat (48 + n)).isDigit = true ∧ (Char.ofNat (48 + n)).toNat = 48 + n := by
  interval_cases n <;> exact ⟨by decide, by decide⟩

lemma natDigits_chars : ∀ n : Nat, ∀ c ∈ natDigits n, c.isDigit = true := by
  intro n
  induction n using Nat.strong_induction_on with
  | _ n ih =>
    intro c hc
    rw [natDigits] at hc
    split at hc
    · next h =>
      obtain rfl : c = Char.ofNat (48 + n) := by simpa using hc
      exact (digitChar_facts n (by omega)).1
    · next h =>
      rw [List.mem_append] at hc
      rcases hc with hc | hc
      · exact ih (n / 10) (Nat.div_lt_self (by omega) (by omega)) c hc
      · obtain rfl : c = Char.ofNat (48 + n % 10) := by simpa using hc
        exact (digitChar_facts (n % 10) (Nat.mod_lt _ (by omega))).1

lemma intRepr_chars (n : Int) :
    ∀ c ∈ intRepr n, c.isDigit = true ∨ c = '-' := by
  intro c hc
  cases n with
  | ofNat m => exact Or.inl (natDigits_chars m c hc)
  | negSucc m =>
    rcases List.mem_cons.mp hc with rfl | hc
    · exact Or.inr rfl
    · exact Or.inl (natDigits_chars (m + 1) c hc)

lemma parseNatGo_digit_cons (c : Char) (hd : c.isDigit = true) (t : GoStr)
    (acc : Nat) :
    parseNat.go (c :: t) acc = parseNat.go t (acc * 10 + (c.toNat - 48)) := by
  rw [parseNat.go]
  rw [if_pos hd]

lemma parseNatGo_append (xs : GoStr) :
    ∀ (ys : GoStr) (acc a : Nat), parseNat.go xs acc = some a →
      parseNat.go (xs ++ ys) acc = parseNat.go ys a := by
  induction xs with
  | nil =>
    intro ys acc a h
    obtain rfl : acc = a := by simpa [parseNat.go] using h
    rfl
  | cons c t ih =>
    intro ys acc a h
    by_cases hd : c.isDigit = true
    · rw [parseNatGo_digit_cons c hd] at h
      rw [List.cons_append, parseNatGo_digit_cons c hd]
      exact ih ys _ a h
    · rw [parseNat.go, if_neg hd] at h
      exact absurd h (by simp)

lemma parseNatGo_natDigits : ∀ (n acc : Nat),
    parseNat.go (natDigits n) acc =
      some (acc * 10 ^ (natDigits n).length + n) := by
  intro n
  induction n using Nat.strong_induction_on with
  | _ n ih =>
    intro acc
    rw [natDigits]
    split
    · next h =>
      rw [parseNatGo_digit_cons _ (digitChar_facts n h).1,
        (show (Char.ofNat (48 + n)).toNat = 48 + n from (digitChar_facts n h).2)]
      show parseNat.go [] (acc * 10 + (48 + n - 48)) = _
      rw [parseNat.go]
      simp
    · next h =>
      have ihm := ih (n / 10) (Nat.div_lt_self (by omega) (by omega)) acc
      rw [parseNatGo_append _ _ _ _ ihm,
        parseNatGo_digit_cons _ (digitChar_facts (n % 10) (Nat.mod_lt _ (by omega))).1,
        (show (Char.ofNat (48 + n % 10)).toNat = 48 + n % 10 from
          (digitChar_facts (n % 10) (Nat.mod_lt _ (by omega))).2)]
      show parseNat.go [] _ = _
      rw [parseNat.go]
      congr 1
      simp only [List.length_append, List.length_cons, List.length_nil]
      have hmod := Nat.div_add_mod n 10
      rw [pow_succ]
      ring_nf
      omega

lemma parseNat_natDigits (n : Nat) : parseNat (natDigits n) = some n := by
  obtain ⟨a, t, ha⟩ : ∃ a t, natDigits n = a :: t := by
    cases h : natDigits n with
    | nil => exact absurd h (natDigits_ne_nil n)
    | cons a t => exact ⟨a, t, rfl⟩
  rw [ha]
  show parseNat.go (a :: t) 0 = some n
  rw [← ha, parseNatGo_natDigits]
  simp

lemma parseIntTok_cons_ne (a : Char) (t : GoStr) (h : ¬ a = '-') :
    parseIntTok (a :: t) = (parseNat (a :: t)).map Int.ofNat := by
  rw [parseIntTok.eq_def]
  split
  · next heq =>
    exact absurd (by injection heq) h
  · rfl

lemma parseIntTok_intRepr (n : Int) : parseIntTok (intRepr n) = some n := by
  cases n with
  | ofNat m =>
    obtain ⟨a, t, ha⟩ : ∃ a t, natDigits m = a :: t := by
      cases h : natDigits m with
      | nil => exact absurd h (natDigits_ne_nil m)
      | cons a t => exact ⟨a, t, rfl⟩
    have haDigit : a.isDigit = true :=
      natDigits_chars m a (ha ▸ List.mem_cons_self a t)
    have hne : ¬ a = '-' := by
      intro he
      rw [he] at haDigit
      exact absurd haDigit (by decide)
    show parseIntTok (natDigits m) = _
    rw [ha, parseIntTok_cons_ne a t hne, ← ha, parseNat_natDigits]
    rfl
  | negSucc m =>
    show parseIntTok ('-' :: natDigits (m + 1)) = _
    show (parseNat (natDigits (m + 1))).map (fun n => -(n : Int)) = _
    rw [parseNat_natDigits]
    simp [Int.negSucc_eq]

lemma mem_of_head_some {α : Type} {l : List α} {a : α} (h : l.head? = some a) :
    a ∈ l := by
  cases l with
  | nil => exact absurd h (by simp)
  | cons x t =>
    obtain rfl : x = a := by simpa using h
    exact List.mem_cons_self x t

lemma takeWhile_append_boundary (p : Char → Bool) (tok rest : GoStr)
    (htok : ∀ c ∈ tok, p c = true)
    (hrest : ∀ c, rest.head? = some c → p c = false) :
    (tok ++ rest).takeWhile p = tok := by
  induction tok with
  | nil =>
    cases rest with
    | nil => rfl
    | cons r rs =>
      show (r :: rs).takeWhile p = []
      rw [List.takeWhile_cons_of_neg]
      simp [hrest r rfl]
  | cons c t ih =>
    rw [List.cons_append, List.takeWhile_cons_of_pos (htok c (by simp)),
      ih (fun x hx => htok x (List.mem_cons_of_mem c hx))]

lemma parseScalar_quote (body : GoStr) :
    parseScalar ('"' :: body) =
      (parseBasicString body).map (fun p => (Value.str p.1, p.2)) := rfl

lemma parseScalar_token (c : Char) (t : GoStr) (h : ¬ c = '"') :
    parseScalar (c :: t) =
      (let tok := (c :: t).takeWhile isTokChar
       let rest := (c :: t).drop tok.length
       if tok = [] then none
       else if tok = gs "true" then some (Value.boolV true, rest)
       else if tok = gs "false" then some (Value.boolV false, rest)
       else if '.' ∈ tok ∨ 'e' ∈ tok ∨ 'E' ∈ tok then
         some (Value.floatV tok, rest)
       else (parseIntTok tok).map (fun n => (Value.intV n, rest))) := by
  rw [parseScalar.eq_def]
  split
  · next heq => exact absurd (by injection heq) h
  · rfl

/-- Evaluating `parseScalar` on a well-formed token followed by a
non-token-character boundary. -/
lemma parseScalar_token_eval (tok rest : GoStr) (hne : tok ≠ [])
    (hhead : ∀ c, tok.head? = some c → ¬ c = '"')
    (htok : ∀ c ∈ tok, isTokChar c = true)
    (hrest : ∀ c, rest.head? = some c → isTokChar c = false) :
    parseScalar (tok ++ rest) =
      (if tok = gs "true" then some (Value.boolV true, rest)
       else if tok = gs "false" then some (Value.boolV false, rest)
       else if '.' ∈ tok ∨ 'e' ∈ tok ∨ 'E' ∈ tok then
         some (Value.floatV tok, rest)
       else (parseIntTok tok).map (fun n => (Value.intV n, rest))) := by
  obtain ⟨c, t, rfl⟩ : ∃ c t, tok = c :: t := by
    cases tok with
    | nil => exact absurd rfl hne
    | cons c t => exact ⟨c, t, rfl⟩
  have htw : (c :: t ++ rest).takeWhile isTokChar = c :: t :=
    takeWhile_append_boundary _ _ _ htok hrest
  have hdr : (c :: t ++ rest).drop (c :: t).length = rest :=
    List.drop_left (c :: t) rest
  rw [List.cons_append, parseScalar_token c _ (hhead c rfl)]
  rw [List.cons_append] at htw hdr
  dsimp only []
  rw [htw, hdr, if_neg (by simp)]

lemma isDigit_isTokChar (c : Char) (h : c.isDigit = true) :
    isTokChar c = true := by
  simp [isTokChar, Char.isAlphanum, h]

/-- Re-reading the TOML rendering of a safe scalar, with any
non-token-character tail, recovers the scalar exactly. -/
lemma parseScalar_toml (v : Value) (hs : SafeScalar v) (rest : GoStr)
    (hrest : ∀ c, rest.head? = some c → isTokChar c = false) :
    parseScalar (tomlValue v ++ rest) = some (v, rest) := by
  cases hs with
  | str s h =>
    show parseScalar (goQuote s ++ rest) = _
    have hgq : goQuote s ++ rest = '"' :: (s.flatMap quoteChar ++ '"' :: rest) := by
      simp [goQuote]
    rw [hgq, parseScalar_quote, parseBasicString_quote s h rest]
    rfl
  | intV n =>
    have hne : intRepr n ≠ [] := by
      cases n with
      | ofNat m => exact natDigits_ne_nil m
      | negSucc m => simp [intRepr]
    have hchars : ∀ c ∈ intRepr n, c.isDigit = true ∨ c = '-' := intRepr_chars n
    show parseScalar (intRepr n ++ rest) = _
    rw [parseScalar_token_eval (intRepr n) rest hne
      (fun c hc he => by
        rcases hchars c (mem_of_head_some hc) with h | h <;> subst he <;>
          revert h <;> decide)
      (fun c hc => by
        rcases hchars c hc with h | rfl
        · exact isDigit_isTokChar c h
        · decide)
      hrest]
    rw [if_neg (fun habs => by
        have : 'r' ∈ intRepr n := by rw [habs]; decide
        rcases hchars _ this with h | h <;> revert h <;> decide),
      if_neg (fun habs => by
        have : 'a' ∈ intRepr n := by rw [habs]; decide
        rcases hchars _ this with h | h <;> revert h <;> decide),
      if_neg (fun habs => by
        rcases habs with h | h | h <;>
          rcases hchars _ h with h2 | h2 <;> revert h2 <;> decide),
      parseIntTok_intRepr]
    rfl
  | boolV b =>
    cases b with
    | true =>
      show parseScalar (gs "true" ++ rest) = _
      rw [parseScalar_token_eval (gs "true") rest (by decide)
        (fun c hc he => by subst he; revert hc; decide)
        (by decide) hrest]
      rw [if_pos rfl]
    | false =>
      show parseScalar (gs "false" ++ rest) = _
      rw [parseScalar_token_eval (gs "false") rest (by decide)
        (fun c hc he => by subst he; revert hc; decide)
        (by decide) hrest]
      rw [if_neg (by decide), if_pos rfl]
  | floatV tok hne hchars hshape =>
    show parseScalar (tok ++ rest) = _
    rw [parseScalar_token_eval tok rest hne
      (fun c hc he => by
        rcases hchars c (mem_of_head_some hc) with h | h | h | h | h | h <;>
          subst he <;> revert h <;> decide)
      (fun c hc => by
        rcases hchars c hc with h | rfl | rfl | rfl | rfl | rfl
        · exact isDigit_isTokChar c h
        all_goals decide)
      hrest]
    rw [if_neg (fun habs => by
        have : 'r' ∈ tok := by rw [habs]; decide
        rcases hchars _ this with h | h | h | h | h | h <;> revert h <;> decide),
      if_neg (fun habs => by
        have : 'l' ∈ tok := by rw [habs]; decide
        rcases hchars _ this with h | h | h | h | h | h <;> revert h <;> decide),
      if_pos hshape]

lemma joinSep_pair {sep a : GoStr} {bs : List GoStr} (hbs : bs ≠ []) :
    joinSep sep (a :: bs) = a ++ (sep ++ joinSep sep bs) := by
  cases bs with
  | nil => exact absurd rfl hbs
  | cons b t => rfl

lemma intRepr_head (n : Int) :
    ∃ a t, intRepr n = a :: t ∧ (a.isDigit = true ∨ a = '-') := by
  cases n with
  | ofNat m =>
    obtain ⟨a, t, ha⟩ : ∃ a t, natDigits m = a :: t := by
      cases h : natDigits m with
      | nil => exact absurd h (natDigits_ne_nil m)
      | cons a t => exact ⟨a, t, rfl⟩
    exact ⟨a, t, ha, Or.inl (natDigits_chars m a (ha ▸ List.mem_cons_self a t))⟩
  | negSucc m => exact ⟨'-', natDigits (m + 1), rfl, Or.inr rfl⟩

/-- The TOML rendering of a safe scalar is nonempty and starts with neither
a bracket nor a comma. -/
lemma tomlValue_scalar_head (v : Value) (hs : SafeScalar v) :
    ∃ c t, tomlValue v = c :: t ∧ ¬ c = '[' ∧ ¬ c = ']' := by
  cases hs with
  | str s h => exact ⟨'"', s.flatMap quoteChar ++ ['"'], rfl, by decide, by decide⟩
  | intV n =>
    obtain ⟨a, t, ha, hcl⟩ := intRepr_head n
    refine ⟨a, t, ha, ?_, ?_⟩ <;>
      · intro he
        rcases hcl with h | h <;> rw [he] at h <;> revert h <;> decide
  | boolV b =>
    cases b with
    | true => exact ⟨'t', ['r', 'u', 'e'], rfl, by decide, by decide⟩
    | false => exact ⟨'f', ['a', 'l', 's', 'e'], rfl, by decide, by decide⟩
  | floatV tok hne hchars _ =>
    obtain ⟨a, t, ha⟩ : ∃ a t, tok = a :: t := by
      cases tok with
      | nil => exact absurd rfl hne
      | cons a t => exact ⟨a, t, rfl⟩
    refine ⟨a, t, ha, ?_, ?_⟩ <;>
      · intro he
        have := hchars a (ha ▸ List.mem_cons_self a t)
        rw [he] at this
        rcases this with h | h | h | h | h | h <;> revert h <;> decide

lemma parseValue_not_bracket (c : Char) (t : GoStr) (h : ¬ c = '[') :
    parseValue (c :: t) =
      (parseScalar (c :: t)).bind fun p =>
        if p.2 = [] then some p.1 else none := by
  rw [parseValue.eq_def]
  split
  · next heq => exact absurd (by injection heq) h
  · rfl

lemma parseValue_bracket_cons (c : Char) (t : GoStr) (h : ¬ c = ']') :
    parseValue ('[' :: c :: t) =
      (parseArrayElems (c :: t)).bind fun p =>
        if p.2 = [] then some (Value.arr p.1) else none := by
  show (match c :: t with
        | ']' :: r2 => if r2 = [] then some (Value.arr []) else none
        | _ =>
          (parseArrayElems (c :: t)).bind fun p =>
            if p.2 = [] then some (Value.arr p.1) else none) = _
  split
  · next heq => exact absurd (by injection heq) h
  · rfl

/-- Re-reading the rendered elements of a nonempty safe array, up to the
closing bracket, recovers the elements exactly. -/
lemma parseArrayElems_toml (xs : List Value) (hne : xs ≠ [])
    (hxs : ∀ v ∈ xs, SafeScalar v) (rest : GoStr) :
    parseArrayElems (joinSep (gs ", ") (tomlValueList xs) ++ ']' :: rest) =
      some (xs, rest) := by
  induction xs with
  | nil => exact absurd rfl hne
  | cons x t ih =>
    have hx : SafeScalar x := hxs x (List.mem_cons_self x t)
    cases t with
    | nil =>
      have hj : joinSep (gs ", ") (tomlValueList [x]) = tomlValue x := by
        simp [joinSep, tomlValueList]
      rw [hj, parseArrayElems.eq_def]
      have hsc := parseScalar_toml x hx (']' :: rest)
        (fun c hc => by
          obtain rfl : c = ']' := by simpa using hc.symm
          decide)
      split
      · next hp =>
        rw [hsc] at hp
        exact absurd hp (by simp)
      · next v r hp =>
        rw [hsc] at hp
        obtain ⟨rfl, rfl⟩ : x = v ∧ ']' :: rest = r := by simpa using hp
        rfl
    | cons y t2 =>
      have hj : joinSep (gs ", ") (tomlValueList (x :: y :: t2)) =
          tomlValue x ++
            (gs ", " ++ joinSep (gs ", ") (tomlValueList (y :: t2))) := rfl
      have hre : joinSep (gs ", ") (tomlValueList (x :: y :: t2)) ++ ']' :: rest =
          tomlValue x ++
            (',' :: ' ' ::
              (joinSep (gs ", ") (tomlValueList (y :: t2)) ++ ']' :: rest)) := by
        rw [hj]
        simp [gs]
      rw [hre, parseArrayElems.eq_def]
      have hsc := parseScalar_toml x hx
        (',' :: ' ' :: (joinSep (gs ", ") (tomlValueList (y :: t2)) ++ ']' :: rest))
        (fun c hc => by
          obtain rfl : c = ',' := by simpa using hc.symm
          decide)
      split
      · next hp =>
        rw [hsc] at hp
        exact absurd hp (by simp)
      · next v r hp =>
        rw [hsc] at hp
        obtain ⟨rfl, rfl⟩ :
            x = v ∧
              ',' :: ' ' ::
                (joinSep (gs ", ") (tomlValueList (y :: t2)) ++ ']' :: rest) = r := by
          simpa using hp
        show (parseArrayElems
            (joinSep (gs ", ") (tomlValueList (y :: t2)) ++ ']' :: rest)).map
            (fun p => (x :: p.1, p.2)) = _
        rw [ih (by simp) (fun v hv => hxs v (List.mem_cons_of_mem x hv))]
        rfl

/-- Re-reading the full TOML rendering of a safe value recovers the value. -/
lemma parseValue_toml (v : Value) (hv : SafeValue v) :
    parseValue (tomlValue v) = some v := by
  cases hv with
  | scalar v hs =>
    obtain ⟨c, t, hct, hbr, _⟩ := tomlValue_scalar_head v hs
    rw [hct, parseValue_not_bracket c t hbr, ← hct]
    have hsc := parseScalar_toml v hs [] (fun c hc => by simp at hc)
    rw [List.append_nil] at hsc
    rw [hsc]
    rfl
  | arr xs hxs =>
    cases xs with
    | nil => rfl
    | cons x t =>
      obtain ⟨more, hmore⟩ :
          ∃ more, joinSep (gs ", ") (tomlValueList (x :: t)) =
            tomlValue x ++ more := by
        cases t with
        | nil => exact ⟨[], by simp [joinSep, tomlValueList]⟩
        | cons y t2 => exact ⟨_, joinSep_pair (by simp [tomlValueList])⟩
      obtain ⟨c, ct, hct, _, hrb⟩ := tomlValue_scalar_head x (hxs x (by simp))
      have harr : tomlValue (.arr (x :: t)) = '[' :: c :: (ct ++ more ++ [']']) := by
        show '[' :: joinSep (gs ", ") (tomlValueList (x :: t)) ++ [']'] = _
        rw [hmore, hct]
        simp
      rw [harr, parseValue_bracket_cons c _ hrb]
      have hre : c :: (ct ++ more ++ [']']) =
          joinSep (gs ", ") (tomlValueList (x :: t)) ++ ']' :: [] := by
        rw [hmore, hct]
        simp
      rw [hre, parseArrayElems_toml (x :: t) (by simp) hxs []]
      rfl

lemma parseHeader_toml (name : GoStr) (h1 : name ≠ [])
    (h2 : ∀ c ∈ name, isBareChar c = true) :
    parseHeader ('[' :: name ++ [']']) = some name := by
  show (if (name ++ [']']).getLast? = some ']' ∧ (name ++ [']']).dropLast ≠ [] ∧
          (name ++ [']']).dropLast.all isBareChar then
        some ((name ++ [']']).dropLast)
      else none) = some name
  rw [List.getLast?_concat, List.dropLast_concat]
  rw [if_pos ⟨rfl, h1, List.all_eq_true.mpr h2⟩]

lemma parseHeader_not_bracket (c : Char) (t : GoStr) (h : ¬ c = '[') :
    parseHeader (c :: t) = none := by
  rw [parseHeader.eq_def]
  split
  · next heq => exact absurd (by injection heq) h
  · rfl

lemma parseKVLine_toml (key : GoStr) (h1 : key ≠ [])
    (h2 : ∀ c ∈ key, isBareChar c = true) (v : Value) (hv : SafeValue v) :
    parseKVLine (key ++ ' ' :: '=' :: ' ' :: tomlValue v) = some (key, v) := by
  have htw : (key ++ ' ' :: '=' :: ' ' :: tomlValue v).takeWhile isBareChar = key :=
    takeWhile_append_boundary _ _ _ h2
      (fun c hc => by
        obtain rfl : c = ' ' := by simpa using hc.symm
        decide)
  unfold parseKVLine
  simp only [htw, List.drop_left]
  rw [if_neg h1]
  show ((parseValue (tomlValue v)).map fun w => (key, w)) = some (key, v)
  rw [parseValue_toml v hv]
  rfl

lemma splitLines_ne_nil (s : GoStr) : ∃ a b, splitLines s = a :: b := by
  rw [splitLines.eq_def]
  split
  · exact ⟨[], [], rfl⟩
  · exact ⟨[], _, rfl⟩
  · next _ c2 r2 _ =>
    cases hs : splitLines r2 with
    | nil => exact ⟨[c2], [], rfl⟩
    | cons a b => exact ⟨c2 :: a, b, rfl⟩

lemma splitLines_cons_ne (c : Char) (rest : GoStr) (h : ¬ c = '\n') :
    ∃ a b, splitLines rest = a :: b ∧ splitLines (c :: rest) = (c :: a) :: b := by
  obtain ⟨a, b, hab⟩ := splitLines_ne_nil rest
  refine ⟨a, b, hab, ?_⟩
  rw [splitLines.eq_def]
  split
  · next heq => exact absurd heq (by simp)
  · next _ heq => exact absurd (by injection heq) h
  · next _ c2 r2 _ heq =>
    obtain ⟨rfl, rfl⟩ : c = c2 ∧ rest = r2 := by
      injection heq with h1 h2
      exact ⟨h1, h2⟩
    rw [hab]

lemma splitLines_append_newline (l : GoStr) (hl : ∀ c ∈ l, ¬ c = '\n')
    (r : GoStr) : splitLines (l ++ '\n' :: r) = l :: splitLines r := by
  induction l with
  | nil => rfl
  | cons c t ih =>
    obtain ⟨a, b, hab, hc⟩ :=
      splitLines_cons_ne c (t ++ '\n' :: r) (hl c (List.mem_cons_self c t))
    rw [List.cons_append, hc]
    rw [ih (fun x hx => hl x (List.mem_cons_of_mem c hx))] at hab
    obtain ⟨rfl, rfl⟩ : t = a ∧ splitLines r = b := by
      constructor <;> injection hab <;> simp_all
    rfl

/-- Splitting a block of newline-terminated newline-free lines. -/
lemma splitLines_flat (ls : List GoStr) (h : ∀ l ∈ ls, ∀ c ∈ l, ¬ c = '\n')
    (rest : GoStr) :
    splitLines (ls.flatMap (fun l => l ++ ['\n']) ++ rest) =
      ls ++ splitLines rest := by
  induction ls with
  | nil => rfl
  | cons l t ih =>
    have hre : (l :: t).flatMap (fun l => l ++ ['\n']) ++ rest =
        l ++ '\n' :: (t.flatMap (fun l => l ++ ['\n']) ++ rest) := by
      simp
    rw [hre, splitLines_append_newline l (h l (List.mem_cons_self l t)),
      ih (fun x hx => h x (List.mem_cons_of_mem l hx))]
    rfl

/-! ### Newline-freedom of the rendered pieces -/

lemma quoteChar_no_newline (c : Char)
    (hp : 0x20 ≤ c.toNat ∧ c.toNat ≤ 0x7e) :
    ∀ d ∈ quoteChar c, ¬ d = '\n' := by
  intro d hd
  by_cases hq : c = '"'
  · subst hq
    rcases (by simpa [quoteChar] using hd : d = '\\' ∨ d = '"') with rfl | rfl <;>
      decide
  · by_cases hb : c = '\\'
    · subst hb
      rcases (by simpa [quoteChar] using hd : d = '\\' ∨ d = '\\') with rfl | rfl <;>
        decide
    · rw [quoteChar_eq_self c hp.1 hp.2 hq hb] at hd
      obtain rfl : d = c := by simpa using hd
      intro he
      rw [he] at hp
      revert hp
      decide

lemma goQuote_no_newline (s : GoStr) (h : PrintableASCII s) :
    ∀ d ∈ goQuote s, ¬ d = '\n' := by
  intro d hd
  unfold goQuote at hd
  rcases List.mem_cons.mp hd with rfl | hd
  · decide
  · rcases List.mem_append.mp hd with hd | hd
    · obtain ⟨c, hc, hdc⟩ := List.mem_flatMap.mp hd
      exact quoteChar_no_newline c (h c hc) d hdc
    · obtain rfl : d = '"' := by simpa using hd
      decide

lemma intRepr_no_newline (n : Int) : ∀ d ∈ intRepr n, ¬ d = '\n' := by
  intro d hd he
  rcases intRepr_chars n d hd with h | h <;> rw [he] at h <;> revert h <;> decide

lemma mem_intersperse {α : Type} (sep a : α) :
    ∀ (l : List α), a ∈ List.intersperse sep l → a = sep ∨ a ∈ l := by
  intro l
  induction l with
  | nil => simp [List.intersperse]
  | cons x t ih =>
    cases t with
    | nil => exact fun hmem => Or.inr hmem
    | cons y t2 =>
      intro hmem
      rw [show List.intersperse sep (x :: y :: t2) =
          x :: sep :: List.intersperse sep (y :: t2) from rfl] at hmem
      rcases List.mem_cons.mp hmem with rfl | hmem2
      · exact Or.inr (List.mem_cons_self _ _)
      · rcases List.mem_cons.mp hmem2 with rfl | hmem3
        · exact Or.inl rfl
        · rcases ih hmem3 with h | h
          · exact Or.inl h
          · exact Or.inr (List.mem_cons_of_mem x h)

lemma tomlValueList_eq_map (xs : List Value) :
    tomlValueList xs = xs.map tomlValue := by
  induction xs with
  | nil => rfl
  | cons x t ih => rw [tomlValueList, ih, List.map_cons]

lemma tomlValue_scalar_no_newline (v : Value) (hs : SafeScalar v) :
    ∀ d ∈ tomlValue v, ¬ d = '\n' := by
  cases hs with
  | str s h => exact goQuote_no_newline s h
  | intV n => exact intRepr_no_newline n
  | boolV b =>
    cases b with
    | true =>
      intro d hd
      have hd2 : d ∈ ['t', 'r', 'u', 'e'] := hd
      have : d = 't' ∨ d = 'r' ∨ d = 'u' ∨ d = 'e' := by
        simpa using hd2
      rcases this with rfl | rfl | rfl | rfl <;> decide
    | false =>
      intro d hd
      have hd2 : d ∈ ['f', 'a', 'l', 's', 'e'] := hd
      have : d = 'f' ∨ d = 'a' ∨ d = 'l' ∨ d = 's' ∨ d = 'e' := by
        simpa using hd2
      rcases this with rfl | rfl | rfl | rfl | rfl <;> decide
  | floatV tok hne hchars hshape =>
    intro d hd he
    rcases hchars d hd with h | h | h | h | h | h <;> rw [he] at h <;>
      revert h <;> decide

lemma tomlValue_no_newline (v : Value) (hv : SafeValue v) :
    ∀ d ∈ tomlValue v, ¬ d = '\n' := by
  cases hv with
  | scalar v hs => exact tomlValue_scalar_no_newline v hs
  | arr xs hxs =>
    intro d hd
    have hd2 : d ∈ '[' :: joinSep (gs ", ") (tomlValueList xs) ++ [']'] := hd
    rcases List.mem_append.mp hd2 with hd3 | hd3
    · rcases List.mem_cons.mp hd3 with rfl | hd4
      · decide
      · unfold joinSep at hd4
        obtain ⟨piece, hpiece, hdp⟩ := List.mem_flatten.mp hd4
        rcases mem_intersperse _ _ _ hpiece with hsep | hmem
        · subst hsep
          have hdp2 : d ∈ [',', ' '] := hdp
          rcases (by simpa using hdp2 : d = ',' ∨ d = ' ') with rfl | rfl <;> decide
        · rw [tomlValueList_eq_map] at hmem
          obtain ⟨x, hx, rfl⟩ := List.mem_map.mp hmem
          exact tomlValue_scalar_no_newline x (hxs x hx) d hdp
    · obtain rfl : d = ']' := by simpa using hd3
      decide

/-- The lines `FormatTOML` renders for one category: a header line and one
`key = value` line per field. -/
def catLines (cat : Category) : List GoStr :=
  ('[' :: cat.Name ++ [']']) ::
    cat.Fields.map (fun f => f.Key ++ ' ' :: '=' :: ' ' :: tomlValue f.Value)

lemma flat_kv_lines (fs : List Field)
    (h : ∀ f ∈ fs, IsDescKey f.Key = false) :
    (fs.flatMap fun f =>
      if IsDescKey f.Key then []
      else f.Key ++ ' ' :: '=' :: ' ' :: tomlValue f.Value ++ ['\n']) =
    (fs.map (fun f => f.Key ++ ' ' :: '=' :: ' ' :: tomlValue f.Value)).flatMap
      (fun l => l ++ ['\n']) := by
  induction fs with
  | nil => rfl
  | cons f t ih =>
    rw [List.flatMap_cons, List.map_cons, List.flatMap_cons,
      if_neg (by simp [h f (List.mem_cons_self f t)]),
      ih (fun x hx => h x (List.mem_cons_of_mem f hx))]

lemma renderCat_flat (cat : Category)
    (h : ∀ f ∈ cat.Fields, IsDescKey f.Key = false) :
    renderCat cat = (catLines cat).flatMap (fun l => l ++ ['\n']) := by
  show '[' :: cat.Name ++ ']' :: '\n' ::
      (cat.Fields.flatMap fun f =>
        if IsDescKey f.Key then []
        else f.Key ++ ' ' :: '=' :: ' ' :: tomlValue f.Value ++ ['\n']) = _
  rw [flat_kv_lines cat.Fields h, catLines, List.flatMap_cons]
  simp

lemma catLines_no_newline (cat : Category)
    (hname : ∀ c ∈ cat.Name, isBareChar c = true)
    (hf : ∀ f ∈ cat.Fields, (∀ c ∈ f.Key, isBareChar c = true) ∧ SafeValue f.Value) :
    ∀ l ∈ catLines cat, ∀ c ∈ l, ¬ c = '\n' := by
  intro l hl
  rcases List.mem_cons.mp hl with rfl | hl2
  · intro c hc
    rcases List.mem_cons.mp hc with rfl | hc2
    · decide
    · rcases List.mem_append.mp hc2 with hc3 | hc3
      · intro he
        have := hname c hc3
        rw [he] at this
        revert this
        decide
      · obtain rfl : c = ']' := by simpa using hc3
        decide
  · obtain ⟨f, hfmem, rfl⟩ := List.mem_map.mp hl2
    intro c hc
    rcases List.mem_append.mp hc with hc2 | hc2
    · intro he
      have := (hf f hfmem).1 c hc2
      rw [he] at this
      revert this
      decide
    · rcases List.mem_cons.mp hc2 with rfl | hc3
      · decide
      · rcases List.mem_cons.mp hc3 with rfl | hc4
        · decide
        · rcases List.mem_cons.mp hc4 with rfl | hc5
          · decide
          · exact tomlValue_no_newline f.Value (hf f hfmem).2 c hc5

lemma contains_eq_false_of_not_mem {l : List GoStr} {a : GoStr} (h : a ∉ l) :
    l.contains a = false := by
  rw [← Bool.not_eq_true]
  intro hc
  exact h (List.elem_iff.mp hc)

lemma stepLine_blank (st : DocState) : stepLine (some st) [] = some st := rfl

lemma stepLine_header (st : DocState) (name : GoStr) (h1 : name ≠ [])
    (h2 : ∀ c ∈ name, isBareChar c = true)
    (hnm : name ∉ (flushCat st).map Prod.fst) :
    stepLine (some st) ('[' :: name ++ [']']) =
      some (flushCat st, some (name, [])) := by
  rw [stepLine]
  rw [if_neg (by simp), parseHeader_toml name h1 h2]
  show (if ((flushCat st).map Prod.fst).contains name then none
        else some (flushCat st, some (name, []))) = _
  rw [contains_eq_false_of_not_mem hnm]
  rfl

lemma stepLine_kv (acc : List (GoStr × List (GoStr × Value))) (cname : GoStr)
    (kvs : List (GoStr × Value)) (key : GoStr) (v : Value)
    (h1 : key ≠ []) (h2 : ∀ c ∈ key, isBareChar c = true) (hv : SafeValue v)
    (hnd : key ∉ kvs.map Prod.fst) :
    stepLine (some (acc, some (cname, kvs)))
        (key ++ ' ' :: '=' :: ' ' :: tomlValue v) =
      some (acc, some (cname, kvs ++ [(key, v)])) := by
  obtain ⟨k0, kt, rfl⟩ : ∃ k0 kt, key = k0 :: kt := by
    cases key with
    | nil => exact absurd rfl h1
    | cons k0 kt => exact ⟨k0, kt, rfl⟩
  have hk0 : ¬ k0 = '[' := by
    intro he
    have := h2 k0 (List.mem_cons_self k0 kt)
    rw [he] at this
    revert this
    decide
  rw [stepLine]
  rw [if_neg (by simp)]
  have hph : parseHeader ((k0 :: kt) ++ ' ' :: '=' :: ' ' :: tomlValue v) = none := by
    rw [List.cons_append]
    exact parseHeader_not_bracket k0 _ hk0
  rw [hph]
  show (match parseKVLine ((k0 :: kt) ++ ' ' :: '=' :: ' ' :: tomlValue v) with
        | none => none
        | some kv =>
          if (kvs.map Prod.fst).contains kv.1 then none
          else some (acc, some (cname, kvs ++ [kv]))) = _
  rw [parseKVLine_toml (k0 :: kt) h1 h2 v hv]
  show (if (kvs.map Prod.fst).contains (k0 :: kt) then none
        else some (acc, some (cname, kvs ++ [(k0 :: kt, v)]))) = _
  rw [contains_eq_false_of_not_mem hnd]
  rfl

lemma foldl_kvs (fs : List Field)
    (hf : ∀ f ∈ fs, f.Key ≠ [] ∧ (∀ c ∈ f.Key, isBareChar c = true) ∧
      SafeValue f.Value)
    (cname : GoStr) (acc : List (GoStr × List (GoStr × Value)))
    (kvs : List (GoStr × Value))
    (hnd : (kvs.map Prod.fst ++ fs.map Field.Key).Nodup) (more : List GoStr) :
    ((fs.map (fun f => f.Key ++ ' ' :: '=' :: ' ' :: tomlValue f.Value)) ++
        more).foldl stepLine (some (acc, some (cname, kvs))) =
      more.foldl stepLine
        (some (acc, some (cname, kvs ++ fs.map (fun f => (f.Key, f.Value))))) := by
  induction fs generalizing kvs with
  | nil => simp
  | cons f t ih =>
    have hfh := hf f (List.mem_cons_self f t)
    have hknotin : f.Key ∉ kvs.map Prod.fst := by
      intro hmem
      have hd := (List.nodup_append.mp hnd).2.2
      exact hd hmem (List.mem_cons_self _ _)
    rw [List.map_cons, List.cons_append, List.foldl_cons,
      stepLine_kv acc cname kvs f.Key f.Value hfh.1 hfh.2.1 hfh.2.2 hknotin,
      ih (fun x hx => hf x (List.mem_cons_of_mem f hx)) (kvs ++ [(f.Key, f.Value)])
        (by simpa [List.append_assoc] using hnd)]
    simp

/-- Folding the reader over the rendered lines of a category list: every
category is accepted and lands, flushed, behind the starting state's
categories. -/
lemma foldl_doc (cats : List Category) (st : DocState)
    (hcats : ∀ cat ∈ cats,
      (cat.Name ≠ [] ∧ ∀ c ∈ cat.Name, isBareChar c = true) ∧
      (cat.Fields.map Field.Key).Nodup ∧
      ∀ f ∈ cat.Fields,
        f.Key ≠ [] ∧ (∀ c ∈ f.Key, isBareChar c = true) ∧
        IsDescKey f.Key = false ∧ SafeValue f.Value)
    (hnd : ((flushCat st).map Prod.fst ++ cats.map Category.Name).Nodup) :
    ∃ st', (splitLines (joinSep ['\n'] (cats.map renderCat))).foldl stepLine
        (some st) = some st' ∧
      flushCat st' = flushCat st ++
        cats.map (fun c => (c.Name, c.Fields.map fun f => (f.Key, f.Value))) := by
  induction cats generalizing st with
  | nil => exact ⟨st, rfl, by simp⟩
  | cons c t ih =>
    have hch := hcats c (List.mem_cons_self c t)
    have hlines : ∀ l ∈ catLines c, ∀ ch ∈ l, ¬ ch = '\n' :=
      catLines_no_newline c hch.1.2
        (fun f hf => ⟨(hch.2.2 f hf).2.1, (hch.2.2 f hf).2.2.2⟩)
    have hflat : renderCat c = (catLines c).flatMap (fun l => l ++ ['\n']) :=
      renderCat_flat c (fun f hf => (hch.2.2 f hf).2.2.1)
    have hnamenotin : c.Name ∉ (flushCat st).map Prod.fst := by
      have hd := (List.nodup_append.mp hnd).2.2
      exact fun hmem => hd hmem (by simp)
    have hfkv : ∀ f ∈ c.Fields,
        f.Key ≠ [] ∧ (∀ ch ∈ f.Key, isBareChar ch = true) ∧ SafeValue f.Value :=
      fun f hf => ⟨(hch.2.2 f hf).1, (hch.2.2 f hf).2.1, (hch.2.2 f hf).2.2.2⟩
    cases t with
    | nil =>
      have hJ : joinSep ['\n'] ([c].map renderCat) = renderCat c := by
        simp [joinSep]
      rw [hJ, hflat]
      have hsl := splitLines_flat (catLines c) hlines []
      rw [List.append_nil] at hsl
      rw [hsl, catLines, List.cons_append, List.foldl_cons,
        stepLine_header st c.Name hch.1.1 hch.1.2 hnamenotin,
        foldl_kvs c.Fields hfkv c.Name (flushCat st) []
          (by simpa using hch.2.1) _]
      refine ⟨(flushCat st,
        some (c.Name, [] ++ c.Fields.map fun f => (f.Key, f.Value))), rfl, ?_⟩
      simp [flushCat]
    | cons c2 t2 =>
      have hJ : joinSep ['\n'] ((c :: c2 :: t2).map renderCat) =
          renderCat c ++
            ('\n' :: joinSep ['\n'] ((c2 :: t2).map renderCat)) := by
        rw [List.map_cons, joinSep_pair (by simp)]
        rfl
      rw [hJ, hflat,
        splitLines_flat (catLines c) hlines
          ('\n' :: joinSep ['\n'] ((c2 :: t2).map renderCat)),
        show splitLines ('\n' :: joinSep ['\n'] ((c2 :: t2).map renderCat)) =
          [] :: splitLines (joinSep ['\n'] ((c2 :: t2).map renderCat)) from rfl,
        catLines, List.cons_append, List.foldl_cons,
        stepLine_header st c.Name hch.1.1 hch.1.2 hnamenotin,
        foldl_kvs c.Fields hfkv c.Name (flushCat st) []
          (by simpa using hch.2.1) _,
        List.foldl_cons, stepLine_blank]
      obtain ⟨st', h1, h2⟩ := ih
        (flushCat st,
          some (c.Name, [] ++ c.Fields.map fun f => (f.Key, f.Value)))
        (fun cat hcat => hcats cat (List.mem_cons_of_mem c hcat))
        (by
          have : flushCat (flushCat st,
              some (c.Name, [] ++ c.Fields.map fun f => (f.Key, f.Value))) =
            flushCat st ++ [(c.Name, c.Fields.map fun f => (f.Key, f.Value))] := by
            simp [flushCat]
          rw [this]
          simpa [List.append_assoc] using hnd)
      refine ⟨st', h1, ?_⟩
      rw [h2]
      have : flushCat (flushCat st,
          some (c.Name, [] ++ c.Fields.map fun f => (f.Key, f.Value))) =
        flushCat st ++ [(c.Name, c.Fields.map fun f => (f.Key, f.Value))] := by
        simp [flushCat]
      rw [this]
      simp

/-- `parseTOMLDoc` reads `FormatTOML` output back as one table per category
holding exactly the rendered key/value pairs. -/
lemma parseTOMLDoc_format (db : DB)
    (hcats : ∀ cat ∈ db.Categories,
      (cat.Name ≠ [] ∧ ∀ c ∈ cat.Name, isBareChar c = true) ∧
      (cat.Fields.map Field.Key).Nodup ∧
      ∀ f ∈ cat.Fields,
        f.Key ≠ [] ∧ (∀ c ∈ f.Key, isBareChar c = true) ∧
        IsDescKey f.Key = false ∧ SafeValue f.Value)
    (hnd : (db.Categories.map Category.Name).Nodup) :
    parseTOMLDoc (FormatTOML db) =
      some (db.Categories.map fun c =>
        (c.Name, Value.table (c.Fields.map fun f => (f.Key, f.Value)))) := by
  obtain ⟨st', h1, h2⟩ := foldl_doc db.Categories ([], none) hcats (by simpa using hnd)
  unfold parseTOMLDoc FormatTOML
  rw [h1]
  show some ((flushCat st').map fun p => (p.1, Value.table p.2)) = _
  rw [h2]
  show some ((db.Categories.map fun c =>
      (c.Name, c.Fields.map fun f => (f.Key, f.Value))).map
      fun p => (p.1, Value.table p.2)) = _
  rw [List.map_map]
  rfl

lemma sortStrs_dedup_of_sorted (l : List GoStr) (h : l.Pairwise (· < ·)) :
    sortStrs l.dedup = l := by
  have hnd : l.Nodup := h.imp (fun hlt => ne_of_lt hlt)
  rw [List.dedup_eq_self.mpr hnd]
  exact List.eq_of_perm_of_sorted (List.perm_insertionSort _ l)
    (List.sorted_insertionSort _ l) (h.imp (fun hlt => le_of_lt hlt))

lemma lookupRaw_map_keyed {α β : Type} (l : List β) (key : β → GoStr)
    (val : β → α) (b : β) (hb : b ∈ l) (hnd : (l.map key).Nodup) :
    lookupRaw (l.map fun x => (key x, val x)) (key b) = some (val b) := by
  induction l with
  | nil => simp at hb
  | cons a t ih =>
    rw [List.map_cons]
    unfold lookupRaw
    rcases List.mem_cons.mp hb with rfl | hbt
    · rw [List.find?_cons_of_pos _ (by simp)]
      rfl
    · have hka : key a ∉ t.map key := (List.nodup_cons.mp (by simpa using hnd)).1
      have hne : (key a == key b) = false := by
        rw [beq_eq_false_iff_ne]
        intro he
        exact hka (he ▸ List.mem_map_of_mem key hbt)
      rw [List.find?_cons_of_neg _ (by simp [hne])]
      exact ih hbt (List.nodup_cons.mp (by simpa using hnd)).2

lemma fields_proj (fs : List Field) (catMap : List (GoStr × Value))
    (D : GoStr → GoStr) (cname : GoStr)
    (hlook : ∀ f ∈ fs, lookupRaw catMap f.Key = some f.Value) :
    ((fs.map Field.Key).filterMap fun key =>
        (lookupRaw catMap key).map fun v => Field.mk key v (D key) cname).map
      (fun f => (f.Key, f.Value)) = fs.map (fun f => (f.Key, f.Value)) := by
  induction fs with
  | nil => rfl
  | cons f t ih =>
    rw [List.map_cons, List.filterMap_cons_some
        (by rw [hlook f (List.mem_cons_self f t)]; rfl),
      List.map_cons, ih (fun x hx => hlook x (List.mem_cons_of_mem f hx))]
    rfl

lemma cat_build (nm : GoStr) (fs : List Field) (E : List Field)
    (hproj : E.map (fun f => (f.Key, f.Value)) = fs.map (fun f => (f.Key, f.Value)))
    (hne : fs ≠ []) :
    ∃ cat', (if E.isEmpty = true then none else some (Category.mk nm E)) =
        some cat' ∧
      (cat'.Name, cat'.Fields.map fun f => (f.Key, f.Value)) =
        (nm, fs.map fun f => (f.Key, f.Value)) := by
  have hlen : E.length = fs.length := by
    have := congrArg List.length hproj
    simpa using this
  have hEne : E ≠ [] := by
    intro he
    rw [he] at hlen
    cases hfs : fs with
    | nil => exact hne hfs
    | cons a b =>
      rw [hfs] at hlen
      simp at hlen
  have hEmp : E.isEmpty = false := by
    cases E with
    | nil => exact absurd rfl hEne
    | cons _ _ => rfl
  rw [hEmp]
  exact ⟨Category.mk nm E, rfl, by rw [show (Category.mk nm E).Fields = E from rfl,
    hproj]⟩

lemma filterMap_proj (l : List Category) (F : GoStr → Option Category)
    (h : ∀ c ∈ l, ∃ cat', F c.Name = some cat' ∧
      (cat'.Name, cat'.Fields.map fun f => (f.Key, f.Value)) =
        (c.Name, c.Fields.map fun f => (f.Key, f.Value))) :
    ((l.map Category.Name).filterMap F).map
        (fun cat => (cat.Name, cat.Fields.map fun f => (f.Key, f.Value))) =
      l.map (fun cat => (cat.Name, cat.Fields.map fun f => (f.Key, f.Value))) := by
  induction l with
  | nil => rfl
  | cons c t ih =>
    obtain ⟨cat', hF, hproj⟩ := h c (List.mem_cons_self c t)
    rw [List.map_cons, List.filterMap_cons_some hF, List.map_cons,
      hproj, List.map_cons, ih (fun x hx => h x (List.mem_cons_of_mem c hx))]

/-- Loading the raw table built from a well-formed category list reproduces
every category's name and its fields' keys and values. -/
lemma loadDB_proj (cats : List Category)
    (hnd : (cats.map Category.Name).Pairwise (· < ·))
    (hc : ∀ cat ∈ cats,
      (cat.Fields.map Field.Key).Pairwise (· < ·) ∧ cat.Fields ≠ [] ∧
      ∀ f ∈ cat.Fields, IsDescKey f.Key = false) :
    ((loadDB (cats.map fun c =>
        (c.Name, Value.table (c.Fields.map fun f => (f.Key, f.Value))))).Categories.map
      (fun cat => (cat.Name, cat.Fields.map fun f => (f.Key, f.Value)))) =
      cats.map (fun cat => (cat.Name, cat.Fields.map fun f => (f.Key, f.Value))) := by
  have hndn : (cats.map Category.Name).Nodup := hnd.imp (fun hlt => ne_of_lt hlt)
  unfold loadDB
  dsimp only []
  have hm : ((cats.map fun c =>
      (c.Name, Value.table (c.Fields.map fun f => (f.Key, f.Value)))).map Prod.fst) =
      cats.map Category.Name := by
    rw [List.map_map]
    rfl
  rw [hm, sortStrs_dedup_of_sorted _ hnd]
  refine filterMap_proj cats _ ?_
  intro c hcmem
  have hcc := hc c hcmem
  have hlook := lookupRaw_map_keyed cats Category.Name
    (fun x => Value.table (x.Fields.map fun f => (f.Key, f.Value))) c hcmem hndn
  rw [hlook]
  dsimp only []
  have hkeys : sortStrs ((((c.Fields.map fun f => (f.Key, f.Value)).map
      Prod.fst).filter (fun k => !IsDescKey k)).dedup) = c.Fields.map Field.Key := by
    have h1 : ((c.Fields.map fun f => (f.Key, f.Value)).map Prod.fst) =
        c.Fields.map Field.Key := by
      rw [List.map_map]
      rfl
    rw [h1, List.filter_eq_self.mpr (fun k hk => by
        obtain ⟨f, hf, rfl⟩ := List.mem_map.mp hk
        simp [hcc.2.2 f hf]),
      sortStrs_dedup_of_sorted _ hcc.1]
  rw [hkeys]
  have hflook : ∀ f ∈ c.Fields,
      lookupRaw (c.Fields.map fun x => (x.Key, x.Value)) f.Key = some f.Value :=
    fun f hf => lookupRaw_map_keyed c.Fields Field.Key Field.Value f hf
      (hcc.1.imp (fun hlt => ne_of_lt hlt))
  exact cat_build c.Name c.Fields _
    (fields_proj c.Fields (c.Fields.map fun f => (f.Key, f.Value)) _ c.Name hflook)
    hcc.2.1

/-- C7, amended.  TOML format round trip: for a database whose category
names are strictly sorted with strictly sorted field keys (the Load/Merge
sort invariant), whose names and keys are nonempty bare keys, whose keys
are not `_desc`-suffixed, whose categories are nonempty, and whose values
are safe (printable-ASCII strings, integers, booleans, floats with a
float-shaped canonical token, or flat arrays of such scalars), parsing the
output of `FormatTOML` with the loader reproduces every category's name and
its fields' keys and values exactly; descriptions are not compared, as they
are not re-embedded. -/
theorem formatTOML_roundtrip (db : DB) (hsorted : DBSorted db)
    (hcats : ∀ cat ∈ db.Categories,
      (cat.Name ≠ [] ∧ ∀ c ∈ cat.Name, isBareChar c = true) ∧
      cat.Fields ≠ [] ∧
      ∀ f ∈ cat.Fields,
        f.Key ≠ [] ∧ (∀ c ∈ f.Key, isBareChar c = true) ∧
        IsDescKey f.Key = false ∧ SafeValue f.Value) :
    ∃ raw, parseTOMLDoc (FormatTOML db) = some raw ∧
      (loadDB raw).Categories.map
          (fun cat => (cat.Name, cat.Fields.map fun f => (f.Key, f.Value))) =
        db.Categories.map
          (fun cat => (cat.Name, cat.Fields.map fun f => (f.Key, f.Value))) := by
  refine ⟨_, parseTOMLDoc_format db ?_ ?_, ?_⟩
  · intro cat hcat
    exact ⟨(hcats cat hcat).1,
      (hsorted.2 cat hcat).imp (fun hlt => ne_of_lt hlt),
      (hcats cat hcat).2.2⟩
  · exact (hsorted.1).imp (fun hlt => ne_of_lt hlt)
  · exact loadDB_proj db.Categories hsorted.1
      (fun cat hcat => ⟨hsorted.2 cat hcat, (hcats cat hcat).2.1,
        fun f hf => ((hcats cat hcat).2.2 f hf).2.2.1⟩)

/-- A well-formed one-category, one-integer-field database for the C7
witness. -/
def exC7GoodDB : DB := ⟨[⟨gs "c", [⟨gs "k", .intV 7, [], gs "c"⟩]⟩]⟩

/-- C7 witness: the amended round trip applied to a concrete database. -/
theorem formatTOML_roundtrip_witness :
    ∃ raw, parseTOMLDoc (FormatTOML exC7GoodDB) = some raw ∧
      (loadDB raw).Categories.map
          (fun cat => (cat.Name, cat.Fields.map fun f => (f.Key, f.Value))) =
        exC7GoodDB.Categories.map
          (fun cat => (cat.Name, cat.Fields.map fun f => (f.Key, f.Value))) :=
  formatTOML_roundtrip exC7GoodDB ⟨by decide, by decide⟩
    (fun cat hcat => by
      have hcat2 : cat ∈ [(⟨gs "c", [⟨gs "k", .intV 7, [], gs "c"⟩]⟩ : Category)] :=
        hcat
      have hc : cat = ⟨gs "c", [⟨gs "k", .intV 7, [], gs "c"⟩]⟩ := by
        simpa using hcat2
      subst hc
      refine ⟨⟨by decide, by decide⟩, (fun h => nomatch h), fun f hf => ?_⟩
      have hf2 : f ∈ [(⟨gs "k", .intV 7, [], gs "c"⟩ : Field)] := hf
      have hfeq : f = ⟨gs "k", .intV 7, [], gs "c"⟩ := by
        simpa using hf2
      subst hfeq
      exact ⟨by decide, by decide, by decide,
        SafeValue.scalar _ (SafeScalar.intV 7)⟩)

/-! ### C10: empty search returns everything -/

/-- C10.  `Search db ""` returns every non-description field of `db` in
category-then-field order (i.e. exactly `AllFields db`), because the empty
string is a (case-insensitive) substring of every field key. -/
theorem search_empty_returns_all (db : DB) : Search db [] = AllFields db := by
  unfold Search AllFields
  simp [toLowerStr, containsLower, goContains_nil]

end Deets
